import Mathlib

/-!
# VWAPer v0.1: aggregation model and report generation

A shallow embedding of `src/VWAPer_v0.1_implementation.cpp`.

* `size_t` values are natural numbers; every `size_t` addition of the source is
  reduced modulo `2 ^ 64` (`sizeMod`).
* `double` prices read from the input are finite, and the source only compares and
  copies them, so they are rationals here.  The one floating-point division of the
  source (the percentage) is exact rational division, with the IEEE results of a
  division by zero (`nan`, `inf`) kept as separate values.
* `unordered_map` is an association list; `find` returns the first entry of a key,
  `emplace` appends an entry when the key is absent.
* Writes to `cerr` are diagnostics only and are not modelled.
-/

namespace VWAPer

/-! ## Machine arithmetic and library functions -/

/-- Modulus of the unsigned 64-bit type `size_t`. -/
def sizeMod : Nat := 2 ^ 64

/-- The function `std::max(a, b)`: `(a < b) ? b : a`. -/
def stdMax {α : Type} [LT α] [DecidableRel (fun (x y : α) => x < y)] (a b : α) : α :=
  if a < b then b else a

/-- The function `std::min(a, b)`: `(b < a) ? b : a`. -/
def stdMin {α : Type} [LT α] [DecidableRel (fun (x y : α) => x < y)] (a b : α) : α :=
  if b < a then b else a

/-! ## `unordered_map` as an association list -/

/-- The lookup `m.find(key)`: `none` stands for `m.end()`. -/
def umFind {κ α : Type} [DecidableEq κ] : List (κ × α) → κ → Option α
  | [], _ => none
  | (k, v) :: rest, key => if k = key then some v else umFind rest key

/-- The insertion `m.emplace(key, v)`: nothing happens when the key is present. -/
def umEmplace {κ α : Type} [DecidableEq κ] (m : List (κ × α)) (key : κ) (v : α) :
    List (κ × α) :=
  match umFind m key with
  | some _ => m
  | none => m ++ [(key, v)]

/-- A write through the iterator returned by `m.find(key)`: the mapped value of
the entry of `key` becomes `f` of it.  Without such an entry nothing changes. -/
def umModify {κ α : Type} [DecidableEq κ] (f : α → α) : List (κ × α) → κ → List (κ × α)
  | [], _ => []
  | (k, v) :: rest, key =>
      if k = key then (k, f v) :: rest else (k, v) :: umModify f rest key

/-- The access `m[key]` followed by a write `f` to the returned reference:
`operator[]` first inserts a value-initialised (zero) entry when the key is absent. -/
def umIndexModify {κ : Type} [DecidableEq κ] (f : Nat → Nat) (m : List (κ × Nat)) (key : κ) :
    List (κ × Nat) :=
  umModify f (umEmplace m key 0) key

/-- Sum of all mapped values, accumulated in `size_t`. -/
def sumValues : List (Nat × Nat) → Nat
  | [] => 0
  | (_, v) :: rest => (v + sumValues rest) % sizeMod

/-! ## class `Stock` -/

/-- The data members of `Stock`. -/
structure Stock where
  stockName : String
  totalVolume : Nat
  intervalVolume : List (Nat × Nat)
  maxHigh : ℚ
  minLow : ℚ
  deriving DecidableEq

namespace Stock

/-- The constructor `Stock(stockName, interval, volume, high, low)`: the member
initialisers, then `intervalVolume[interval] = volume` on the empty map. -/
def new (stockName : String) (interval volume : Nat) (high low : ℚ) : Stock :=
  { stockName := stockName
    totalVolume := volume
    intervalVolume := umIndexModify (fun _ => volume) [] interval
    maxHigh := high
    minLow := low }

/-- The member function `updateStockInfo(interval, volume, high, low)`. -/
def updateStockInfo (s : Stock) (interval volume : Nat) (high low : ℚ) : Stock :=
  { stockName := s.stockName
    totalVolume := (s.totalVolume + volume) % sizeMod
    intervalVolume := umIndexModify (fun v => (v + volume) % sizeMod) s.intervalVolume interval
    maxHigh := stdMax s.maxHigh high
    minLow := stdMin s.minLow low }

/-- The getter `getStockName()`. -/
def getStockName (s : Stock) : String := s.stockName

/-- The getter `getTotalVolume()`. -/
def getTotalVolume (s : Stock) : Nat := s.totalVolume

/-- The getter `getVolumeAtInterval(interval)`: `0` (with a warning) when the interval
is not a key of the map. -/
def getVolumeAtInterval (s : Stock) (interval : Nat) : Nat :=
  match umFind s.intervalVolume interval with
  | none => 0
  | some v => v

/-- The getter `getMaxHigh()`. -/
def getMaxHigh (s : Stock) : ℚ := s.maxHigh

/-- The getter `getMinLow()`. -/
def getMinLow (s : Stock) : ℚ := s.minLow

/-- The getter `getIntervalVolume()`. -/
def getIntervalVolume (s : Stock) : List (Nat × Nat) := s.intervalVolume

end Stock

/-! ## class `MarketData` -/

/-- The data members of `MarketData`. -/
structure MarketData where
  allStocks : List (String × Stock)
  stockOrder : List String
  intervals : Nat
  deriving DecidableEq

namespace MarketData

/-- A default-constructed `MarketData`: empty containers, `intervals = 0`. -/
def empty : MarketData := { allStocks := [], stockOrder := [], intervals := 0 }

/-- The member function `found(stockName)`. -/
def found (m : MarketData) (stockName : String) : Bool :=
  (umFind m.allStocks stockName).isSome

/-- The member function `getStock(stockName)`: `none` stands for `nullptr`. -/
def getStock (m : MarketData) (stockName : String) : Option Stock :=
  umFind m.allStocks stockName

/-- The member function `addStock(stockName, interval, volume, high, low)`. -/
def addStock (m : MarketData) (stockName : String) (interval volume : Nat) (high low : ℚ) :
    MarketData :=
  match umFind m.allStocks stockName with
  | some _ => m
  | none =>
      { allStocks := umEmplace m.allStocks stockName (Stock.new stockName interval volume high low)
        stockOrder := m.stockOrder ++ [stockName]
        intervals := stdMax m.intervals interval }

/-- The member function `updateStock(stockName, interval, volume, high, low)`. -/
def updateStock (m : MarketData) (stockName : String) (interval volume : Nat) (high low : ℚ) :
    MarketData :=
  match umFind m.allStocks stockName with
  | none => m
  | some _ =>
      { allStocks :=
          umModify (fun s => s.updateStockInfo interval volume high low) m.allStocks stockName
        stockOrder := m.stockOrder
        intervals := stdMax m.intervals interval }

/-- The getter `getStockorder()`. -/
def getStockorder (m : MarketData) : List String := m.stockOrder

/-- The getter `getNumOfIntervals()`. -/
def getNumOfIntervals (m : MarketData) : Nat := m.intervals

end MarketData

/-! ## `readMarketData` -/

/-- One successfully parsed input line `stockName interval volume high low`. -/
structure Record where
  stockName : String
  interval : Nat
  volume : Nat
  high : ℚ
  low : ℚ
  deriving DecidableEq

/-- The two integer fields of a record are read into `size_t` variables. -/
def Record.wf (r : Record) : Prop := r.interval < sizeMod ∧ r.volume < sizeMod

instance (r : Record) : Decidable r.wf := by
  unfold Record.wf; infer_instance

/-- The body of the reading loop of `readMarketData` for one parsed line. -/
def ingest (m : MarketData) (r : Record) : MarketData :=
  if m.found r.stockName then
    m.updateStock r.stockName r.interval r.volume r.high r.low
  else
    m.addStock r.stockName r.interval r.volume r.high r.low

/-- The function `readMarketData`, from the parsed lines of the file on. -/
def readMarketData (records : List Record) : MarketData :=
  records.foldl ingest MarketData.empty

/-! ## `outputRequirements` -/

/-- The value of the `double` expression `(double(v) / totalVolume) * 100`: exact when
the divisor is not zero; IEEE division by zero gives `nan` for `0 / 0` and `inf`
for a positive dividend, and the multiplication by `100` keeps both. -/
inductive Percentage where
  | value (q : ℚ)
  | inf
  | nan
  deriving DecidableEq

/-- The expression `(double(volumeAtInterval) / totalVolume) * 100`. -/
def percentageOfVolumeTraded (volumeAtInterval totalVolume : Nat) : Percentage :=
  if totalVolume = 0 then
    (if volumeAtInterval = 0 then Percentage.nan else Percentage.inf)
  else
    Percentage.value ((volumeAtInterval : ℚ) / (totalVolume : ℚ) * 100)

/-- One line written to `cout`. -/
inductive OutputLine where
  | percentage (stockName : String) (interval : Nat) (pct : Percentage)
  | delimiter
  | highLow (stockName : String) (high low : ℚ)
  deriving DecidableEq

/-- The ways a run of `outputRequirements` fails to return. -/
inductive Fault where
  | nullDeref
  | outOfFuel
  deriving DecidableEq

deriving instance DecidableEq for Except

/-- The inner loop of the percentage table for interval `i`, over the remaining
names of `currentStockOrder`.  Dereferencing the `nullptr` of `getStock` is a fault. -/
def percentageRowsAt (m : MarketData) (i : Nat) : List String → Except Fault (List OutputLine)
  | [] => Except.ok []
  | stockName :: rest =>
      match m.getStock stockName with
      | none => Except.error Fault.nullDeref
      | some currentStock =>
          match percentageRowsAt m i rest with
          | Except.error e => Except.error e
          | Except.ok rows =>
              Except.ok
                (OutputLine.percentage currentStock.getStockName i
                    (percentageOfVolumeTraded (currentStock.getVolumeAtInterval i)
                      currentStock.getTotalVolume)
                  :: rows)

/-- The outer loop `for (size_t i = ...; i <= intervals; i++)` from the current value
of `i` on; `i++` is a `size_t` increment.  `fuel` bounds the number of loop tests. -/
def percentageLoop (m : MarketData) : Nat → Nat → Except Fault (List OutputLine)
  | 0, _ => Except.error Fault.outOfFuel
  | fuel + 1, i =>
      if i ≤ m.getNumOfIntervals then
        match percentageRowsAt m i m.getStockorder with
        | Except.error e => Except.error e
        | Except.ok rows =>
            match percentageLoop m fuel ((i + 1) % sizeMod) with
            | Except.error e => Except.error e
            | Except.ok more => Except.ok (rows ++ more)
      else Except.ok []

/-- The loop of the high/low table over the remaining names of `currentStockOrder`. -/
def highLowRows (m : MarketData) : List String → Except Fault (List OutputLine)
  | [] => Except.ok []
  | stockName :: rest =>
      match m.getStock stockName with
      | none => Except.error Fault.nullDeref
      | some currentStock =>
          match highLowRows m rest with
          | Except.error e => Except.error e
          | Except.ok rows =>
              Except.ok
                (OutputLine.highLow stockName currentStock.getMaxHigh currentStock.getMinLow
                  :: rows)

/-- The function `outputRequirements`: the lines written to `cout`, in order. -/
def outputRequirements (fuel : Nat) (m : MarketData) : Except Fault (List OutputLine) :=
  match percentageLoop m fuel 1 with
  | Except.error e => Except.error e
  | Except.ok pcts =>
      match highLowRows m m.getStockorder with
      | Except.error e => Except.error e
      | Except.ok hls => Except.ok (pcts ++ [OutputLine.delimiter] ++ hls)

/-! ## Reference notions used by the statements -/

/-- Volume conservation for one stock: the total equals the `size_t` sum of the
values of the interval map. -/
def Stock.Conserved (s : Stock) : Prop := s.getTotalVolume = sumValues s.getIntervalVolume

instance (s : Stock) : Decidable s.Conserved := by
  unfold Stock.Conserved; infer_instance

/-- The aggregate created from a record: the constructor call of `addStock`. -/
def Stock.ofRecord (r : Record) : Stock :=
  Stock.new r.stockName r.interval r.volume r.high r.low

/-- The aggregate after a further record: the `updateStockInfo` call of `updateStock`. -/
def Stock.addRecord (st : Stock) (r : Record) : Stock :=
  st.updateStockInfo r.interval r.volume r.high r.low

/-- The aggregate of a list of records of one symbol: the first through the
constructor, the rest through `updateStockInfo`; no aggregate for no record. -/
def stockOfRecords : List Record → Option Stock
  | [] => none
  | r :: rest => some (rest.foldl Stock.addRecord (Stock.ofRecord r))

/-- The records of the symbol `s`, in input order. -/
def recordsOf (s : String) (rs : List Record) : List Record :=
  rs.filter (fun r => r.stockName = s)

/-- Reference total: the sum of the volumes of all records of the symbol `s`. -/
def volumeOf (s : String) (rs : List Record) : Nat :=
  ((rs.filter (fun r => r.stockName = s)).map (fun r => r.volume)).sum

/-- Reference interval volume: the sum of the volumes of all records of the symbol `s`
whose interval is `i`. -/
def volumeAt (s : String) (i : Nat) (rs : List Record) : Nat :=
  ((rs.filter (fun r => r.stockName = s ∧ r.interval = i)).map (fun r => r.volume)).sum

/-- Reference maximum: the largest interval number of the records, `0` for none. -/
def maxInterval : List Record → Nat
  | [] => 0
  | r :: rest => max r.interval (maxInterval rest)

/-- Addition of two percentage values: exact on numbers; `nan` absorbs everything and
`inf` absorbs numbers, as in IEEE arithmetic on non-negative operands. -/
def Percentage.add : Percentage → Percentage → Percentage
  | Percentage.value a, Percentage.value b => Percentage.value (a + b)
  | Percentage.nan, _ => Percentage.nan
  | _, Percentage.nan => Percentage.nan
  | Percentage.inf, _ => Percentage.inf
  | _, Percentage.inf => Percentage.inf

/-- The percentages that `outputRequirements` computes for one stock at the intervals
`1, ..., n`, in this order. -/
def percentagesOf (st : Stock) (n : Nat) : List Percentage :=
  (List.range' 1 n).map
    (fun i => percentageOfVolumeTraded (st.getVolumeAtInterval i) st.getTotalVolume)

/-- The sum of the percentages of one stock over the intervals `1, ..., n`. -/
def percentageSum (st : Stock) (n : Nat) : Percentage :=
  (percentagesOf st n).foldl Percentage.add (Percentage.value 0)

/-- Reference order: the distinct symbols of a list, in order of first occurrence. -/
def firstSeen : List String → List String
  | [] => []
  | x :: xs => x :: (firstSeen xs).filter (fun y => y ≠ x)

/-- The symbol printed on an output line; the delimiter line has none. -/
def OutputLine.symbol : OutputLine → Option String
  | OutputLine.percentage stockName _ _ => some stockName
  | OutputLine.delimiter => none
  | OutputLine.highLow stockName _ _ => some stockName

/-- Registry consistency: the symbols of `stockOrder` are exactly the keys of
`allStocks`, and the stock found under a key carries that key as its name. -/
def MarketData.Consistent (m : MarketData) : Prop :=
  (∀ name, name ∈ m.getStockorder ↔ (m.getStock name).isSome) ∧
  (∀ name st, m.getStock name = some st → st.getStockName = name)

/-- The market states a program can build: `MarketData` keeps its members private, so
a state arises from the empty one through `addStock` and `updateStock` calls only,
with `size_t` arguments. -/
inductive Reachable : MarketData → Prop where
  | empty : Reachable MarketData.empty
  | addStock (m : MarketData) (name : String) (interval volume : Nat) (high low : ℚ) :
      Reachable m → interval < sizeMod → volume < sizeMod →
      Reachable (m.addStock name interval volume high low)
  | updateStock (m : MarketData) (name : String) (interval volume : Nat) (high low : ℚ) :
      Reachable m → interval < sizeMod → volume < sizeMod →
      Reachable (m.updateStock name interval volume high low)

/-- The interval printed on a percentage row (`0` on the other lines). -/
def OutputLine.intervalOf : OutputLine → Nat
  | OutputLine.percentage _ i _ => i
  | OutputLine.delimiter => 0
  | OutputLine.highLow _ _ _ => 0

/-- The percentage rows of interval `i` for a list of stocks, in the order of the list:
one row `(name, i, getVolumeAtInterval(i) / getTotalVolume() * 100)` per stock. -/
def percentageBlock (stocks : List Stock) (i : Nat) : List OutputLine :=
  stocks.map (fun st =>
    OutputLine.percentage st.getStockName i
      (percentageOfVolumeTraded (st.getVolumeAtInterval i) st.getTotalVolume))

/-- Reference percentage table: the blocks of the intervals `1, 2, ..., n` in ascending
order, concatenated. -/
def percentageTable (stocks : List Stock) (n : Nat) : List OutputLine :=
  (List.range' 1 n).flatMap (percentageBlock stocks)

/-- Reference interval map of the records of one symbol: the interval `i` is a key
when some record has it, and its value is the `size_t` sum of the volumes of those
records. -/
def intervalMapOf (l : List Record) (i : Nat) : Option Nat :=
  if l.filter (fun r => r.interval = i) = [] then none
  else some (((l.filter (fun r => r.interval = i)).map (fun r => r.volume)).sum % sizeMod)

/-- Reference day high: the maximum high over the records of the symbol `s`
(`0` when the symbol has no record). -/
def maxHighOf (s : String) (rs : List Record) : ℚ :=
  match recordsOf s rs with
  | [] => 0
  | r :: rest => (rest.map (fun x => x.high)).foldl max r.high

/-- Reference day low: the minimum low over the records of the symbol `s`
(`0` when the symbol has no record). -/
def minLowOf (s : String) (rs : List Record) : ℚ :=
  match recordsOf s rs with
  | [] => 0
  | r :: rest => (rest.map (fun x => x.low)).foldl min r.low

/-- The records of the end-to-end scenario of the source's closing comment. -/
def scenarioRecords : List Record :=
  [⟨"VOD.L", 1, 80, 184.1, 182.4⟩, ⟨"BT.LN", 1, 25, 449.8, 448.2⟩,
   ⟨"VOD.L", 2, 20, 184.1, 182.4⟩, ⟨"BT.LN", 2, 75, 449.8, 448.2⟩]

/-- The records of the missing-interval scenario: `A` has no record at interval 2. -/
def missingIntervalRecords : List Record :=
  [⟨"A", 1, 10, 5, 1⟩, ⟨"B", 1, 5, 6, 2⟩, ⟨"B", 2, 5, 6, 2⟩]

/-! ## Lemmas on the association-list maps -/

theorem sizeMod_eq : sizeMod = 18446744073709551616 := by
  norm_num [sizeMod]

theorem sizeMod_pos : 0 < sizeMod := by
  rw [sizeMod_eq]; omega

theorem umFind_append {κ α : Type} [DecidableEq κ] (m : List (κ × α)) (k key : κ) (v : α) :
    umFind (m ++ [(k, v)]) key =
      match umFind m key with
      | some x => some x
      | none => if k = key then some v else none := by
  induction m with
  | nil => simp [umFind]
  | cons hd tl ih =>
      obtain ⟨k0, v0⟩ := hd
      by_cases h : k0 = key
      · simp [umFind, h]
      · simp [umFind, h, ih]

theorem umFind_emplace {κ α : Type} [DecidableEq κ] (m : List (κ × α)) (k key : κ) (v : α) :
    umFind (umEmplace m k v) key =
      match umFind m key with
      | some x => some x
      | none => if k = key then some v else none := by
  unfold umEmplace
  cases hk : umFind m k with
  | none => simp only []; exact umFind_append m k key v
  | some y =>
      simp only []
      cases hkey : umFind m key with
      | some x => rfl
      | none =>
          by_cases h : k = key
          · subst h; rw [hk] at hkey; cases hkey
          · simp [h]

theorem umFind_modify {κ α : Type} [DecidableEq κ] (f : α → α) (m : List (κ × α)) (k key : κ) :
    umFind (umModify f m k) key =
      if k = key then (umFind m key).map f else umFind m key := by
  induction m with
  | nil => simp [umFind, umModify]
  | cons hd tl ih =>
      obtain ⟨k0, v0⟩ := hd
      by_cases h0 : k0 = k
      · subst h0
        by_cases h : k0 = key
        · simp [umFind, umModify, h]
        · simp [umFind, umModify, h]
      · by_cases h : k0 = key
        · subst h
          have h1 : ¬ k = k0 := fun e => h0 e.symm
          simp [umFind, umModify, h0, h1]
        · simp [umFind, umModify, h0, h, ih]

theorem umModify_keys {κ α : Type} [DecidableEq κ] (f : α → α) (m : List (κ × α)) (k : κ) :
    (umModify f m k).map Prod.fst = m.map Prod.fst := by
  induction m with
  | nil => rfl
  | cons hd tl ih =>
      obtain ⟨k0, v0⟩ := hd
      by_cases h0 : k0 = k
      · simp [umModify, h0]
      · simp [umModify, h0, ih]

theorem umModify_forall {κ α : Type} [DecidableEq κ] (P : α → Prop) (f : α → α)
    (hf : ∀ a, P a → P (f a)) (m : List (κ × α)) (k : κ)
    (hm : ∀ p ∈ m, P p.2) : ∀ p ∈ umModify f m k, P p.2 := by
  induction m with
  | nil => intro p hp; simp [umModify] at hp
  | cons hd tl ih =>
      obtain ⟨k0, v0⟩ := hd
      have hhd : P v0 := hm (k0, v0) (List.mem_cons_self _ _)
      have htl : ∀ p ∈ tl, P p.2 := fun p hp => hm p (List.mem_cons_of_mem _ hp)
      intro p hp
      by_cases h0 : k0 = k
      · simp only [umModify, h0, if_true, List.mem_cons] at hp
        rcases hp with rfl | hp
        · exact hf _ hhd
        · exact htl p hp
      · simp only [umModify, h0, if_false, List.mem_cons] at hp
        rcases hp with rfl | hp
        · exact hhd
        · exact ih htl p hp

theorem umEmplace_forall {κ α : Type} [DecidableEq κ] (P : α → Prop) (m : List (κ × α))
    (k : κ) (v : α) (hv : P v) (hm : ∀ p ∈ m, P p.2) : ∀ p ∈ umEmplace m k v, P p.2 := by
  unfold umEmplace
  cases umFind m k with
  | some y => exact hm
  | none =>
      intro p hp
      simp only [List.mem_append, List.mem_singleton] at hp
      rcases hp with hp | rfl
      · exact hm p hp
      · exact hv

/-! ## Sums of interval volumes -/

theorem sumValues_lt (m : List (Nat × Nat)) : sumValues m < sizeMod := by
  cases m with
  | nil => exact sizeMod_pos
  | cons hd tl => obtain ⟨k, v⟩ := hd; exact Nat.mod_lt _ sizeMod_pos

theorem sumValues_append (m : List (Nat × Nat)) (k v : Nat) :
    sumValues (m ++ [(k, v)]) = (sumValues m + v) % sizeMod := by
  induction m with
  | nil => simp [sumValues]
  | cons hd tl ih =>
      obtain ⟨k0, v0⟩ := hd
      show (v0 + sumValues (tl ++ [(k, v)])) % sizeMod
        = ((v0 + sumValues tl) % sizeMod + v) % sizeMod
      rw [ih, sizeMod_eq]
      omega

theorem sumValues_emplace_zero (m : List (Nat × Nat)) (k : Nat) :
    sumValues (umEmplace m k 0) = sumValues m := by
  unfold umEmplace
  cases umFind m k with
  | some y => rfl
  | none =>
      simp only [sumValues_append, Nat.add_zero]
      exact Nat.mod_eq_of_lt (sumValues_lt m)

theorem sumValues_modify_add (m : List (Nat × Nat)) (k vol : Nat)
    (h : (umFind m k).isSome) :
    sumValues (umModify (fun v => (v + vol) % sizeMod) m k) = (sumValues m + vol) % sizeMod := by
  induction m with
  | nil => simp [umFind] at h
  | cons hd tl ih =>
      obtain ⟨k0, v0⟩ := hd
      by_cases h0 : k0 = k
      · simp only [umModify, h0, if_true, sumValues, sizeMod_eq]
        omega
      · simp only [umFind, h0, if_false] at h
        simp only [umModify, h0, if_false, sumValues]
        rw [ih h, sizeMod_eq]
        omega

theorem umFind_emplace_self_isSome {κ α : Type} [DecidableEq κ] (m : List (κ × α)) (k : κ)
    (v : α) : (umFind (umEmplace m k v) k).isSome := by
  rw [umFind_emplace]
  cases umFind m k with
  | some x => rfl
  | none => simp

theorem sumValues_indexModify_add (m : List (Nat × Nat)) (k vol : Nat) :
    sumValues (umIndexModify (fun v => (v + vol) % sizeMod) m k)
      = (sumValues m + vol) % sizeMod := by
  unfold umIndexModify
  rw [sumValues_modify_add _ _ _ (umFind_emplace_self_isSome m k 0), sumValues_emplace_zero]

/-! ## Lifting a property of stocks through ingestion -/

theorem ingest_forall (P : Stock → Prop) (m : MarketData) (r : Record)
    (hnew : P (Stock.new r.stockName r.interval r.volume r.high r.low))
    (hupd : ∀ st, P st → P (st.updateStockInfo r.interval r.volume r.high r.low))
    (hm : ∀ p ∈ m.allStocks, P p.2) : ∀ p ∈ (ingest m r).allStocks, P p.2 := by
  unfold ingest MarketData.found MarketData.updateStock MarketData.addStock
  cases h : umFind m.allStocks r.stockName with
  | none =>
      simp only [Option.isSome_none, Bool.false_eq_true, if_false]
      exact umEmplace_forall P _ _ _ hnew hm
  | some st =>
      simp only [Option.isSome_some, if_true]
      exact umModify_forall P _ hupd _ _ hm

theorem foldl_ingest_forall (P : Stock → Prop) (rs : List Record)
    (hnew : ∀ r ∈ rs, P (Stock.new r.stockName r.interval r.volume r.high r.low))
    (hupd : ∀ r ∈ rs, ∀ st, P st → P (st.updateStockInfo r.interval r.volume r.high r.low))
    (m : MarketData) (hm : ∀ p ∈ m.allStocks, P p.2) :
    ∀ p ∈ (rs.foldl ingest m).allStocks, P p.2 := by
  induction rs generalizing m with
  | nil => exact hm
  | cons r tl ih =>
      simp only [List.foldl_cons]
      apply ih (fun x hx => hnew x (List.mem_cons_of_mem _ hx))
        (fun x hx => hupd x (List.mem_cons_of_mem _ hx))
      exact ingest_forall P m r (hnew r (List.mem_cons_self _ _))
        (hupd r (List.mem_cons_self _ _)) hm

theorem conserved_new (stockName : String) (interval volume : Nat) (high low : ℚ)
    (hv : volume < sizeMod) : (Stock.new stockName interval volume high low).Conserved := by
  simp [Stock.Conserved, Stock.new, Stock.getTotalVolume, Stock.getIntervalVolume,
    umIndexModify, umEmplace, umFind, umModify, sumValues, Nat.mod_eq_of_lt hv]

theorem conserved_update (st : Stock) (interval volume : Nat) (high low : ℚ)
    (h : st.Conserved) : (st.updateStockInfo interval volume high low).Conserved := by
  unfold Stock.Conserved Stock.getTotalVolume Stock.getIntervalVolume at *
  simp only [Stock.updateStockInfo, sumValues_indexModify_add, h]

/-! ## The aggregate of a symbol after reading -/

theorem getStock_ingest (m : MarketData) (r : Record) (s : String) :
    (ingest m r).getStock s =
      if r.stockName = s then
        some (match m.getStock s with
              | none => Stock.ofRecord r
              | some st => st.addRecord r)
      else m.getStock s := by
  unfold ingest MarketData.found MarketData.updateStock MarketData.addStock MarketData.getStock
  cases h : umFind m.allStocks r.stockName with
  | none =>
      simp only [Option.isSome_none, Bool.false_eq_true, if_false]
      rw [umFind_emplace]
      by_cases hs : r.stockName = s
      · subst hs; simp [h, Stock.ofRecord]
      · simp only [hs, if_false]
        cases umFind m.allStocks s <;> rfl
  | some st =>
      simp only [Option.isSome_some, if_true]
      rw [umFind_modify]
      by_cases hs : r.stockName = s
      · subst hs; simp [h, Stock.addRecord]
      · simp [hs]

theorem readMarketData_snoc (rs : List Record) (r : Record) :
    readMarketData (rs ++ [r]) = ingest (readMarketData rs) r := by
  simp [readMarketData, List.foldl_append]

theorem stockOfRecords_snoc (l : List Record) (r : Record) :
    stockOfRecords (l ++ [r]) =
      some (match stockOfRecords l with
            | none => Stock.ofRecord r
            | some st => st.addRecord r) := by
  cases l with
  | nil => rfl
  | cons hd tl => simp [stockOfRecords, List.foldl_append]

theorem recordsOf_snoc (s : String) (rs : List Record) (r : Record) :
    recordsOf s (rs ++ [r]) = if r.stockName = s then recordsOf s rs ++ [r] else recordsOf s rs := by
  unfold recordsOf
  by_cases h : r.stockName = s
  · simp [List.filter_append, h]
  · simp [List.filter_append, h]

/-- After reading, `getStock s` is the aggregate of the records of `s`. -/
theorem getStock_readMarketData (rs : List Record) (s : String) :
    (readMarketData rs).getStock s = stockOfRecords (recordsOf s rs) := by
  induction rs using List.reverseRecOn with
  | nil => rfl
  | append_singleton rs r ih =>
      rw [readMarketData_snoc, getStock_ingest, recordsOf_snoc]
      by_cases h : r.stockName = s
      · simp only [h, if_true, stockOfRecords_snoc, ih]
      · simp only [h, if_false, ih]

/-! ## Totals and interval volumes of an aggregate -/

theorem getVolumeAtInterval_new (name : String) (k vol : Nat) (high low : ℚ) (i : Nat) :
    (Stock.new name k vol high low).getVolumeAtInterval i = if k = i then vol else 0 := by
  by_cases h : k = i
  · simp [Stock.new, Stock.getVolumeAtInterval, umIndexModify, umEmplace, umFind, umModify, h]
  · simp [Stock.new, Stock.getVolumeAtInterval, umIndexModify, umEmplace, umFind, umModify, h]

theorem getVolumeAtInterval_update (st : Stock) (k vol : Nat) (high low : ℚ) (i : Nat) :
    (st.updateStockInfo k vol high low).getVolumeAtInterval i =
      if k = i then (st.getVolumeAtInterval i + vol) % sizeMod else st.getVolumeAtInterval i := by
  unfold Stock.getVolumeAtInterval Stock.updateStockInfo umIndexModify
  simp only [umFind_modify, umFind_emplace]
  by_cases h : k = i
  · subst h
    cases umFind st.intervalVolume k <;> simp
  · cases umFind st.intervalVolume i <;> simp [h]

theorem totalVolume_foldl (l : List Record) (st : Stock)
    (h : st.totalVolume + (l.map (fun r => r.volume)).sum < sizeMod) :
    (l.foldl Stock.addRecord st).totalVolume
      = st.totalVolume + (l.map (fun r => r.volume)).sum := by
  induction l generalizing st with
  | nil => simp
  | cons r tl ih =>
      simp only [List.map_cons, List.sum_cons] at h
      have h1 : (st.addRecord r).totalVolume = st.totalVolume + r.volume := by
        simp only [Stock.addRecord, Stock.updateStockInfo]
        exact Nat.mod_eq_of_lt (by omega)
      simp only [List.foldl_cons, List.map_cons, List.sum_cons]
      rw [ih (st.addRecord r) (by rw [h1]; omega), h1]
      omega

theorem getVolumeAtInterval_foldl (i : Nat) (l : List Record) (st : Stock)
    (h : st.getVolumeAtInterval i
        + ((l.filter (fun r => r.interval = i)).map (fun r => r.volume)).sum < sizeMod) :
    (l.foldl Stock.addRecord st).getVolumeAtInterval i
      = st.getVolumeAtInterval i
        + ((l.filter (fun r => r.interval = i)).map (fun r => r.volume)).sum := by
  induction l generalizing st with
  | nil => simp
  | cons r tl ih =>
      by_cases hr : r.interval = i
      · simp only [List.filter_cons, hr, decide_True, if_true, List.map_cons, List.sum_cons] at h
        have h1 : (st.addRecord r).getVolumeAtInterval i
            = st.getVolumeAtInterval i + r.volume := by
          simp only [Stock.addRecord, getVolumeAtInterval_update, hr, if_true]
          exact Nat.mod_eq_of_lt (by omega)
        simp only [List.foldl_cons, List.filter_cons, hr, decide_True, if_true, List.map_cons,
          List.sum_cons]
        rw [ih (st.addRecord r) (by rw [h1]; omega), h1]
        omega
      · simp only [List.filter_cons, hr, decide_False, Bool.false_eq_true, if_false] at h
        have h1 : (st.addRecord r).getVolumeAtInterval i = st.getVolumeAtInterval i := by
          simp only [Stock.addRecord, getVolumeAtInterval_update, hr, if_false]
        simp only [List.foldl_cons, List.filter_cons, hr, decide_False, Bool.false_eq_true,
          if_false]
        rw [ih (st.addRecord r) (by rw [h1]; exact h), h1]

theorem sum_filter_le (p : Record → Bool) (l : List Record) :
    ((l.filter p).map (fun r => r.volume)).sum ≤ (l.map (fun r => r.volume)).sum := by
  induction l with
  | nil => simp
  | cons r tl ih =>
      cases hp : p r
      · simp only [List.filter_cons, hp, Bool.false_eq_true, if_false, List.map_cons,
          List.sum_cons]
        omega
      · simp only [List.filter_cons, hp, if_true, List.map_cons, List.sum_cons]
        omega

/-- Total and interval volumes of the aggregate of a non-empty record list without
`size_t` overflow. -/
theorem stockOfRecords_volumes (r : Record) (rest : List Record)
    (h : ((r :: rest).map (fun x => x.volume)).sum < sizeMod) :
    ((rest.foldl Stock.addRecord (Stock.ofRecord r)).getTotalVolume
        = ((r :: rest).map (fun x => x.volume)).sum) ∧
    ∀ i, (rest.foldl Stock.addRecord (Stock.ofRecord r)).getVolumeAtInterval i
        = (((r :: rest).filter (fun x => x.interval = i)).map (fun x => x.volume)).sum := by
  simp only [List.map_cons, List.sum_cons] at h
  constructor
  · unfold Stock.getTotalVolume
    rw [totalVolume_foldl rest _ (by simpa [Stock.ofRecord, Stock.new] using h)]
    simp [Stock.ofRecord, Stock.new]
  · intro i
    have hle := sum_filter_le (fun x => decide (x.interval = i)) rest
    by_cases hr : r.interval = i
    · have h0 : (Stock.ofRecord r).getVolumeAtInterval i = r.volume := by
        simp [Stock.ofRecord, getVolumeAtInterval_new, hr]
      rw [getVolumeAtInterval_foldl i rest _ (by rw [h0]; omega), h0]
      simp [List.filter_cons, hr]
    · have h0 : (Stock.ofRecord r).getVolumeAtInterval i = 0 := by
        simp [Stock.ofRecord, getVolumeAtInterval_new, hr]
      rw [getVolumeAtInterval_foldl i rest _ (by rw [h0]; omega), h0]
      simp [List.filter_cons, hr]

/-- Totals and interval volumes of a stored stock against the reference sums. -/
theorem getStock_volumes (rs : List Record) (s : String)
    (hs : ∃ r ∈ rs, r.stockName = s) (hsum : volumeOf s rs < sizeMod) :
    ∃ st, (readMarketData rs).getStock s = some st ∧
      st.getTotalVolume = volumeOf s rs ∧
      ∀ i, st.getVolumeAtInterval i = volumeAt s i rs := by
  rw [getStock_readMarketData]
  have hne : recordsOf s rs ≠ [] := by
    obtain ⟨r, hr, hrs⟩ := hs
    intro h
    have : r ∈ recordsOf s rs := by simp [recordsOf, hr, hrs]
    rw [h] at this
    cases this
  have hvol : volumeOf s rs = ((recordsOf s rs).map (fun x => x.volume)).sum := rfl
  have hat : ∀ i, volumeAt s i rs
      = (((recordsOf s rs).filter (fun x => x.interval = i)).map (fun x => x.volume)).sum := by
    intro i
    simp [volumeAt, recordsOf, List.filter_filter, and_comm]
  rw [hvol] at hsum
  simp only [hvol, hat]
  cases hl : recordsOf s rs with
  | nil => exact absurd hl hne
  | cons r rest =>
      rw [hl] at hsum
      exact ⟨_, rfl, stockOfRecords_volumes r rest hsum⟩

/-! ## The global maximum interval -/

theorem stdMax_nat (a b : Nat) : stdMax a b = max a b := by
  unfold stdMax
  by_cases h : a < b
  · simp [h, Nat.max_eq_right (Nat.le_of_lt h)]
  · simp [h, Nat.max_eq_left (Nat.le_of_not_lt h)]

theorem intervals_updateStock (m : MarketData) (name : String) (i v : Nat) (hi lo : ℚ)
    (h : m.found name = true) :
    (m.updateStock name i v hi lo).getNumOfIntervals = stdMax m.getNumOfIntervals i := by
  unfold MarketData.found at h
  unfold MarketData.updateStock MarketData.getNumOfIntervals
  cases hf : umFind m.allStocks name with
  | none => rw [hf] at h; cases h
  | some st => rfl

theorem intervals_addStock (m : MarketData) (name : String) (i v : Nat) (hi lo : ℚ)
    (h : m.found name = false) :
    (m.addStock name i v hi lo).getNumOfIntervals = stdMax m.getNumOfIntervals i := by
  unfold MarketData.found at h
  unfold MarketData.addStock MarketData.getNumOfIntervals
  cases hf : umFind m.allStocks name with
  | none => rfl
  | some st => rw [hf] at h; cases h

theorem intervals_ingest (m : MarketData) (r : Record) :
    (ingest m r).getNumOfIntervals = stdMax m.getNumOfIntervals r.interval := by
  unfold ingest
  cases h : m.found r.stockName with
  | true => simpa using intervals_updateStock m _ _ _ _ _ h
  | false => simpa using intervals_addStock m _ _ _ _ _ h

theorem maxInterval_snoc (rs : List Record) (r : Record) :
    maxInterval (rs ++ [r]) = max (maxInterval rs) r.interval := by
  induction rs with
  | nil => simp [maxInterval]
  | cons hd tl ih =>
      show max hd.interval (maxInterval (tl ++ [r])) = max (max hd.interval (maxInterval tl)) r.interval
      rw [ih]
      omega

theorem intervals_readMarketData (rs : List Record) :
    (readMarketData rs).getNumOfIntervals = maxInterval rs := by
  induction rs using List.reverseRecOn with
  | nil => rfl
  | append_singleton rs r ih =>
      rw [readMarketData_snoc, intervals_ingest, ih, maxInterval_snoc, stdMax_nat]

theorem le_maxInterval (rs : List Record) : ∀ r ∈ rs, r.interval ≤ maxInterval rs := by
  induction rs with
  | nil => intro r hr; cases hr
  | cons hd tl ih =>
      intro r hr
      simp only [maxInterval]
      rcases List.mem_cons.1 hr with rfl | h
      · exact Nat.le_max_left _ _
      · exact Nat.le_trans (ih r h) (Nat.le_max_right _ _)

/-! ## Sums of percentages -/

theorem foldl_add_percentages (vol : Nat → Nat) (total : Nat) (ht : total ≠ 0)
    (l : List Nat) (q0 : ℚ) :
    (l.map (fun i => percentageOfVolumeTraded (vol i) total)).foldl Percentage.add
        (Percentage.value q0)
      = Percentage.value (q0 + (((l.map vol).sum : Nat) : ℚ) / (total : ℚ) * 100) := by
  induction l generalizing q0 with
  | nil => simp
  | cons i tl ih =>
      simp only [List.map_cons, List.foldl_cons, List.sum_cons]
      have h1 : Percentage.add (Percentage.value q0) (percentageOfVolumeTraded (vol i) total)
          = Percentage.value (q0 + (vol i : ℚ) / (total : ℚ) * 100) := by
        simp [percentageOfVolumeTraded, ht, Percentage.add]
      rw [h1, ih]
      congr 1
      push_cast
      ring

theorem sum_indicator (k v : Nat) (l : List Nat) (hnd : l.Nodup) (hk : k ∈ l) :
    (l.map (fun i => if k = i then v else 0)).sum = v := by
  induction l with
  | nil => cases hk
  | cons i tl ih =>
      have hnd2 := List.nodup_cons.1 hnd
      simp only [List.map_cons, List.sum_cons]
      by_cases h : k = i
      · subst h
        have hz : (tl.map (fun i => if k = i then v else 0)).sum = 0 := by
          apply List.sum_eq_zero
          intro x hx
          obtain ⟨j, hj, rfl⟩ := List.mem_map.1 hx
          have : k ≠ j := fun e => hnd2.1 (e ▸ hj)
          simp [this]
        simp [hz]
      · have hk2 : k ∈ tl := by
          rcases List.mem_cons.1 hk with e | e
          · exact absurd e h
          · exact e
        simp [h, ih hnd2.2 hk2]

theorem volumeAt_cons (s : String) (i : Nat) (r : Record) (rs : List Record) :
    volumeAt s i (r :: rs)
      = (if r.stockName = s then (if r.interval = i then r.volume else 0) else 0)
        + volumeAt s i rs := by
  unfold volumeAt
  by_cases h1 : r.stockName = s
  · by_cases h2 : r.interval = i
    · simp [List.filter_cons, h1, h2]
    · simp [List.filter_cons, h1, h2]
  · simp [List.filter_cons, h1]

theorem volumeOf_cons (s : String) (r : Record) (rs : List Record) :
    volumeOf s (r :: rs) = (if r.stockName = s then r.volume else 0) + volumeOf s rs := by
  unfold volumeOf
  by_cases h1 : r.stockName = s
  · simp [List.filter_cons, h1]
  · simp [List.filter_cons, h1]

/-- Summing the reference interval volumes over a duplicate-free list of intervals
that contains the interval of every record gives the reference total. -/
theorem sum_volumeAt (s : String) (l : List Nat) (hnd : l.Nodup) (rs : List Record)
    (hin : ∀ r ∈ rs, r.interval ∈ l) :
    (l.map (fun i => volumeAt s i rs)).sum = volumeOf s rs := by
  induction rs with
  | nil => simp [volumeAt, volumeOf]
  | cons r tl ih =>
      have ih2 := ih (fun x hx => hin x (List.mem_cons_of_mem _ hx))
      have hr := hin r (List.mem_cons_self _ _)
      simp only [volumeAt_cons, volumeOf_cons, List.sum_map_add, ih2]
      by_cases h1 : r.stockName = s
      · simp only [h1, if_true]
        rw [sum_indicator r.interval r.volume l hnd hr]
      · simp [h1]

/-- Without `size_t` overflow, the percentages of a stored stock with a positive
total over the intervals `1, ..., getNumOfIntervals()` add up to `100`. -/
theorem percentageSum_readMarketData (rs : List Record) (hint : ∀ r ∈ rs, 1 ≤ r.interval)
    (s : String) (st : Stock) (hst : (readMarketData rs).getStock s = some st)
    (hpos : 0 < st.getTotalVolume) (hsum : volumeOf s rs < sizeMod) :
    percentageSum st (readMarketData rs).getNumOfIntervals = Percentage.value 100 := by
  have hs : ∃ r ∈ rs, r.stockName = s := by
    rw [getStock_readMarketData] at hst
    cases hl : recordsOf s rs with
    | nil => rw [hl] at hst; cases hst
    | cons r tl =>
        have hr : r ∈ recordsOf s rs := by rw [hl]; exact List.mem_cons_self _ _
        unfold recordsOf at hr
        have := List.mem_filter.1 hr
        exact ⟨r, this.1, by simpa using this.2⟩
  obtain ⟨st2, hst2, htot, hat⟩ := getStock_volumes rs s hs hsum
  rw [hst] at hst2
  cases hst2
  have hne : st.getTotalVolume ≠ 0 := Nat.pos_iff_ne_zero.1 hpos
  unfold percentageSum percentagesOf
  rw [foldl_add_percentages (fun i => st.getVolumeAtInterval i) st.getTotalVolume hne]
  have hfun : (fun i => st.getVolumeAtInterval i) = (fun i => volumeAt s i rs) := funext hat
  rw [hfun, sum_volumeAt s _ (List.nodup_range' 1 _) rs, ← htot]
  · have hq : (st.getTotalVolume : ℚ) ≠ 0 := by exact_mod_cast hne
    rw [div_self hq]
    norm_num
  · intro r hr
    rw [intervals_readMarketData]
    have := le_maxInterval rs r hr
    have := hint r hr
    rw [List.mem_range'_1]
    omega

/-! ## Running extrema -/

theorem stdMax_rat (a b : ℚ) : stdMax a b = max a b := by
  unfold stdMax
  by_cases h : a < b
  · simp [h, max_eq_right (le_of_lt h)]
  · simp [h, max_eq_left (not_lt.1 h)]

theorem stdMin_rat (a b : ℚ) : stdMin a b = min a b := by
  unfold stdMin
  by_cases h : b < a
  · simp [h, min_eq_right (le_of_lt h)]
  · simp [h, min_eq_left (not_lt.1 h)]

theorem maxHigh_foldl (l : List Record) (st : Stock) :
    (l.foldl Stock.addRecord st).getMaxHigh
      = (l.map (fun r => r.high)).foldl max st.getMaxHigh := by
  induction l generalizing st with
  | nil => rfl
  | cons r tl ih =>
      simp only [List.foldl_cons, List.map_cons]
      rw [ih]
      simp [Stock.addRecord, Stock.updateStockInfo, Stock.getMaxHigh, stdMax_rat]

theorem minLow_foldl (l : List Record) (st : Stock) :
    (l.foldl Stock.addRecord st).getMinLow
      = (l.map (fun r => r.low)).foldl min st.getMinLow := by
  induction l generalizing st with
  | nil => rfl
  | cons r tl ih =>
      simp only [List.foldl_cons, List.map_cons]
      rw [ih]
      simp [Stock.addRecord, Stock.updateStockInfo, Stock.getMinLow, stdMin_rat]

/-- The running maximum after further records bounds the old maximum and every new
high, and is one of them. -/
theorem maxHigh_foldl_spec (l : List Record) (st : Stock) :
    st.getMaxHigh ≤ (l.foldl Stock.addRecord st).getMaxHigh ∧
    (∀ x ∈ l, x.high ≤ (l.foldl Stock.addRecord st).getMaxHigh) ∧
    ((l.foldl Stock.addRecord st).getMaxHigh = st.getMaxHigh ∨
      ∃ x ∈ l, (l.foldl Stock.addRecord st).getMaxHigh = x.high) := by
  induction l generalizing st with
  | nil => simp
  | cons r tl ih =>
      obtain ⟨h1, h2, h3⟩ := ih (st.addRecord r)
      have hst : (st.addRecord r).getMaxHigh = max st.getMaxHigh r.high := by
        simp [Stock.addRecord, Stock.updateStockInfo, Stock.getMaxHigh, stdMax_rat]
      simp only [List.foldl_cons]
      refine ⟨?_, ?_, ?_⟩
      · exact le_trans (by rw [hst]; exact le_max_left _ _) h1
      · intro x hx
        rcases List.mem_cons.1 hx with rfl | hx
        · exact le_trans (by rw [hst]; exact le_max_right _ _) h1
        · exact h2 x hx
      · rcases h3 with h3 | ⟨x, hx, h3⟩
        · rw [h3, hst]
          rcases max_choice st.getMaxHigh r.high with hm | hm
          · exact Or.inl hm
          · exact Or.inr ⟨r, List.mem_cons_self _ _, hm⟩
        · exact Or.inr ⟨x, List.mem_cons_of_mem _ hx, h3⟩

/-- The running minimum after further records bounds the old minimum and every new
low, and is one of them. -/
theorem minLow_foldl_spec (l : List Record) (st : Stock) :
    (l.foldl Stock.addRecord st).getMinLow ≤ st.getMinLow ∧
    (∀ x ∈ l, (l.foldl Stock.addRecord st).getMinLow ≤ x.low) ∧
    ((l.foldl Stock.addRecord st).getMinLow = st.getMinLow ∨
      ∃ x ∈ l, (l.foldl Stock.addRecord st).getMinLow = x.low) := by
  induction l generalizing st with
  | nil => simp
  | cons r tl ih =>
      obtain ⟨h1, h2, h3⟩ := ih (st.addRecord r)
      have hst : (st.addRecord r).getMinLow = min st.getMinLow r.low := by
        simp [Stock.addRecord, Stock.updateStockInfo, Stock.getMinLow, stdMin_rat]
      simp only [List.foldl_cons]
      refine ⟨?_, ?_, ?_⟩
      · exact le_trans h1 (by rw [hst]; exact min_le_left _ _)
      · intro x hx
        rcases List.mem_cons.1 hx with rfl | hx
        · exact le_trans h1 (by rw [hst]; exact min_le_right _ _)
        · exact h2 x hx
      · rcases h3 with h3 | ⟨x, hx, h3⟩
        · rw [h3, hst]
          rcases min_choice st.getMinLow r.low with hm | hm
          · exact Or.inl hm
          · exact Or.inr ⟨r, List.mem_cons_self _ _, hm⟩
        · exact Or.inr ⟨x, List.mem_cons_of_mem _ hx, h3⟩

/-! ## First-seen order and registry consistency -/

theorem mem_firstSeen (xs : List String) (y : String) : y ∈ firstSeen xs ↔ y ∈ xs := by
  induction xs with
  | nil => simp [firstSeen]
  | cons x tl ih =>
      simp only [firstSeen, List.mem_cons, List.mem_filter, ih]
      by_cases h : y = x
      · simp [h]
      · simp [h]

theorem nodup_firstSeen (xs : List String) : (firstSeen xs).Nodup := by
  induction xs with
  | nil => simp [firstSeen]
  | cons x tl ih =>
      simp only [firstSeen, List.nodup_cons]
      exact ⟨by simp [List.mem_filter], ih.filter _⟩

theorem firstSeen_snoc (xs : List String) (y : String) :
    firstSeen (xs ++ [y]) = if y ∈ xs then firstSeen xs else firstSeen xs ++ [y] := by
  induction xs with
  | nil => simp [firstSeen]
  | cons x tl ih =>
      show x :: (firstSeen (tl ++ [y])).filter (fun z => z ≠ x)
        = if y ∈ x :: tl then firstSeen (x :: tl) else firstSeen (x :: tl) ++ [y]
      rw [ih]
      by_cases hy : y ∈ tl
      · simp [hy, firstSeen]
      · by_cases hx : y = x
        · subst hx
          simp [hy, firstSeen, List.filter_append]
        · simp [hy, hx, firstSeen, List.filter_append]

theorem stockOrder_ingest (m : MarketData) (r : Record) :
    (ingest m r).getStockorder =
      if m.found r.stockName then m.getStockorder else m.getStockorder ++ [r.stockName] := by
  unfold ingest MarketData.found MarketData.updateStock MarketData.addStock
    MarketData.getStockorder
  cases h : umFind m.allStocks r.stockName <;> simp

theorem found_readMarketData (rs : List Record) (s : String) :
    (readMarketData rs).found s = true ↔ s ∈ rs.map (fun r => r.stockName) := by
  have h : (readMarketData rs).found s = ((readMarketData rs).getStock s).isSome := rfl
  rw [h, getStock_readMarketData]
  cases hl : recordsOf s rs with
  | nil =>
      simp only [stockOfRecords, Option.isSome_none, Bool.false_eq_true, false_iff]
      intro hmem
      obtain ⟨r, hr, hrs⟩ := List.mem_map.1 hmem
      have : r ∈ recordsOf s rs := by simp [recordsOf, hr, hrs]
      rw [hl] at this
      cases this
  | cons r tl =>
      simp only [stockOfRecords, Option.isSome_some, true_iff]
      have hr : r ∈ recordsOf s rs := by rw [hl]; exact List.mem_cons_self _ _
      unfold recordsOf at hr
      have := List.mem_filter.1 hr
      exact List.mem_map.2 ⟨r, this.1, by simpa using this.2⟩

theorem stockOrder_readMarketData (rs : List Record) :
    (readMarketData rs).getStockorder = firstSeen (rs.map (fun r => r.stockName)) := by
  induction rs using List.reverseRecOn with
  | nil => rfl
  | append_singleton rs r ih =>
      rw [readMarketData_snoc, stockOrder_ingest, List.map_append, List.map_singleton,
        firstSeen_snoc, ih]
      by_cases h : r.stockName ∈ rs.map (fun r => r.stockName)
      · simp [h, (found_readMarketData rs r.stockName).2 h]
      · have hf : (readMarketData rs).found r.stockName = false := by
          cases hb : (readMarketData rs).found r.stockName with
          | false => rfl
          | true => exact absurd ((found_readMarketData rs r.stockName).1 hb) h
        simp [h, hf]

theorem stockName_foldl (l : List Record) (st : Stock) :
    (l.foldl Stock.addRecord st).getStockName = st.getStockName := by
  induction l generalizing st with
  | nil => rfl
  | cons r tl ih =>
      simp only [List.foldl_cons]
      rw [ih]
      rfl

theorem consistent_readMarketData (rs : List Record) : (readMarketData rs).Consistent := by
  constructor
  · intro name
    rw [stockOrder_readMarketData, mem_firstSeen]
    exact (found_readMarketData rs name).symm
  · intro name st hst
    rw [getStock_readMarketData] at hst
    cases hl : recordsOf name rs with
    | nil => rw [hl] at hst; cases hst
    | cons r tl =>
        rw [hl] at hst
        simp only [stockOfRecords, Option.some.injEq] at hst
        have hr : r ∈ recordsOf name rs := by rw [hl]; exact List.mem_cons_self _ _
        unfold recordsOf at hr
        have hrn : r.stockName = name := by simpa using (List.mem_filter.1 hr).2
        rw [← hst, stockName_foldl]
        exact hrn

/-! ## The loops of the report -/

/-- In a consistent market every listed name has a stock: the lookups of the report
all succeed, and the stocks found carry the listed names. -/
theorem lookups_of_consistent (m : MarketData) (hm : m.Consistent) (l : List String)
    (hl : ∀ name ∈ l, name ∈ m.getStockorder) :
    ∃ stocks : List Stock, l.map m.getStock = stocks.map some ∧
      stocks.map Stock.getStockName = l := by
  induction l with
  | nil => exact ⟨[], rfl, rfl⟩
  | cons name tl ih =>
      obtain ⟨stocks, h1, h2⟩ := ih (fun x hx => hl x (List.mem_cons_of_mem _ hx))
      have hsome := (hm.1 name).1 (hl name (List.mem_cons_self _ _))
      cases hst : m.getStock name with
      | none => rw [hst] at hsome; cases hsome
      | some st =>
          refine ⟨st :: stocks, ?_, ?_⟩
          · simp [hst, h1]
          · simp [hm.2 name st hst, h2]

theorem percentageRowsAt_eq (m : MarketData) (i : Nat) (l : List String) (stocks : List Stock)
    (h : l.map m.getStock = stocks.map some) :
    percentageRowsAt m i l = Except.ok (stocks.map (fun st =>
      OutputLine.percentage st.getStockName i
        (percentageOfVolumeTraded (st.getVolumeAtInterval i) st.getTotalVolume))) := by
  induction l generalizing stocks with
  | nil =>
      cases stocks with
      | nil => rfl
      | cons st tl => simp at h
  | cons name tl ih =>
      cases stocks with
      | nil => simp at h
      | cons st sts =>
          simp only [List.map_cons, List.cons.injEq] at h
          simp only [percentageRowsAt, h.1, ih sts h.2, List.map_cons]

theorem highLowRows_eq (m : MarketData) (l : List String) (stocks : List Stock)
    (h : l.map m.getStock = stocks.map some) :
    highLowRows m l = Except.ok (List.zipWith
      (fun name st => OutputLine.highLow name st.getMaxHigh st.getMinLow) l stocks) := by
  induction l generalizing stocks with
  | nil =>
      cases stocks with
      | nil => rfl
      | cons st tl => simp at h
  | cons name tl ih =>
      cases stocks with
      | nil => simp at h
      | cons st sts =>
          simp only [List.map_cons, List.cons.injEq] at h
          simp only [highLowRows, h.1, ih sts h.2, List.zipWith_cons_cons]

theorem symbol_percentage_rows (i : Nat) (stocks : List Stock) :
    (stocks.map (fun st => OutputLine.percentage st.getStockName i
        (percentageOfVolumeTraded (st.getVolumeAtInterval i) st.getTotalVolume))).map
      OutputLine.symbol = (stocks.map Stock.getStockName).map some := by
  induction stocks with
  | nil => rfl
  | cons st tl ih => simp [OutputLine.symbol]

theorem symbol_highLow_rows (l : List String) (stocks : List Stock)
    (hlen : stocks.length = l.length) :
    (List.zipWith (fun name st => OutputLine.highLow name st.getMaxHigh st.getMinLow)
      l stocks).map OutputLine.symbol = l.map some := by
  induction l generalizing stocks with
  | nil => simp
  | cons name tl ih =>
      cases stocks with
      | nil => simp at hlen
      | cons st sts =>
          simp only [List.length_cons, Nat.add_right_cancel_iff] at hlen
          simp [OutputLine.symbol, ih sts hlen]

/-- Whenever the percentage loop returns, its rows are whole blocks, one per
executed interval, each listing the symbols of `getStockorder()` in order. -/
theorem percentageLoop_symbols (m : MarketData) (hm : m.Consistent) (fuel : Nat) :
    ∀ i out, percentageLoop m fuel i = Except.ok out →
      ∃ k, out.map OutputLine.symbol
        = (List.replicate k (m.getStockorder.map some)).flatten := by
  induction fuel with
  | zero => intro i out h; simp [percentageLoop] at h
  | succ fuel ih =>
      intro i out h
      obtain ⟨stocks, h1, h2⟩ := lookups_of_consistent m hm m.getStockorder (fun _ hx => hx)
      simp only [percentageLoop] at h
      by_cases hi : i ≤ m.getNumOfIntervals
      · simp only [hi, if_true, percentageRowsAt_eq m i _ stocks h1] at h
        cases hrec : percentageLoop m fuel ((i + 1) % sizeMod) with
        | error e => rw [hrec] at h; cases h
        | ok more =>
            rw [hrec] at h
            simp only [Except.ok.injEq] at h
            obtain ⟨k, hk⟩ := ih _ more hrec
            refine ⟨k + 1, ?_⟩
            rw [← h, List.map_append, symbol_percentage_rows, h2, hk, List.replicate_succ,
              List.flatten_cons]
      · simp only [hi, if_false, Except.ok.injEq] at h
        exact ⟨0, by simp [← h]⟩

/-! ## Reachable states -/

theorem getStock_addStock (m : MarketData) (name : String) (i v : Nat) (hi lo : ℚ)
    (s : String) :
    (m.addStock name i v hi lo).getStock s =
      match m.getStock name with
      | some _ => m.getStock s
      | none => if name = s then some (Stock.new name i v hi lo) else m.getStock s := by
  unfold MarketData.addStock MarketData.getStock
  cases h : umFind m.allStocks name with
  | some st => rfl
  | none =>
      simp only []
      rw [umFind_emplace]
      by_cases hs : name = s
      · subst hs; simp [h]
      · simp only [hs, if_false]
        cases umFind m.allStocks s <;> rfl

theorem getStock_updateStock (m : MarketData) (name : String) (i v : Nat) (hi lo : ℚ)
    (s : String) :
    (m.updateStock name i v hi lo).getStock s =
      if name = s then (m.getStock s).map (fun st => st.updateStockInfo i v hi lo)
      else m.getStock s := by
  unfold MarketData.updateStock MarketData.getStock
  cases h : umFind m.allStocks name with
  | none =>
      by_cases hs : name = s
      · subst hs; simp [h]
      · simp [hs]
  | some st =>
      simp only []
      rw [umFind_modify]

theorem stockOrder_addStock (m : MarketData) (name : String) (i v : Nat) (hi lo : ℚ) :
    (m.addStock name i v hi lo).getStockorder =
      match m.getStock name with
      | some _ => m.getStockorder
      | none => m.getStockorder ++ [name] := by
  unfold MarketData.addStock MarketData.getStock MarketData.getStockorder
  cases h : umFind m.allStocks name <;> rfl

theorem stockOrder_updateStock (m : MarketData) (name : String) (i v : Nat) (hi lo : ℚ) :
    (m.updateStock name i v hi lo).getStockorder = m.getStockorder := by
  unfold MarketData.updateStock MarketData.getStockorder
  cases h : umFind m.allStocks name <;> rfl

theorem consistent_empty : MarketData.empty.Consistent := by
  constructor
  · intro name
    simp [MarketData.empty, MarketData.getStockorder, MarketData.getStock, umFind]
  · intro name st h
    simp [MarketData.empty, MarketData.getStock, umFind] at h

theorem consistent_addStock (m : MarketData) (hm : m.Consistent) (name : String) (i v : Nat)
    (hi lo : ℚ) : (m.addStock name i v hi lo).Consistent := by
  constructor
  · intro s
    rw [stockOrder_addStock, getStock_addStock]
    cases h : m.getStock name with
    | some st => exact hm.1 s
    | none =>
        simp only [List.mem_append, List.mem_singleton]
        by_cases hs : name = s
        · simp [hs]
        · simp only [hs, if_false]
          rw [← hm.1 s]
          constructor
          · rintro (h1 | h1)
            · exact h1
            · exact absurd h1.symm hs
          · exact Or.inl
  · intro s st hst
    rw [getStock_addStock] at hst
    cases h : m.getStock name with
    | some st0 => rw [h] at hst; exact hm.2 s st hst
    | none =>
        rw [h] at hst
        by_cases hs : name = s
        · simp only [hs, if_true, Option.some.injEq] at hst
          rw [← hst, ← hs]
          rfl
        · simp only [hs, if_false] at hst
          exact hm.2 s st hst

theorem consistent_updateStock (m : MarketData) (hm : m.Consistent) (name : String) (i v : Nat)
    (hi lo : ℚ) : (m.updateStock name i v hi lo).Consistent := by
  constructor
  · intro s
    rw [stockOrder_updateStock, getStock_updateStock, hm.1 s]
    by_cases hs : name = s
    · simp [hs]
    · simp [hs]
  · intro s st hst
    rw [getStock_updateStock] at hst
    by_cases hs : name = s
    · simp only [hs, if_true] at hst
      cases h : m.getStock s with
      | none => rw [h] at hst; cases hst
      | some st0 =>
          rw [h] at hst
          simp only [Option.map_some', Option.some.injEq] at hst
          rw [← hst]
          exact hm.2 s st0 h
    · simp only [hs, if_false] at hst
      exact hm.2 s st hst

theorem intervals_addStock_lt (m : MarketData) (name : String) (i v : Nat) (hi lo : ℚ)
    (hm : m.getNumOfIntervals < sizeMod) (h : i < sizeMod) :
    (m.addStock name i v hi lo).getNumOfIntervals < sizeMod := by
  unfold MarketData.addStock MarketData.getNumOfIntervals at *
  cases umFind m.allStocks name with
  | some st => exact hm
  | none =>
      simp only [stdMax]
      split <;> assumption

theorem intervals_updateStock_lt (m : MarketData) (name : String) (i v : Nat) (hi lo : ℚ)
    (hm : m.getNumOfIntervals < sizeMod) (h : i < sizeMod) :
    (m.updateStock name i v hi lo).getNumOfIntervals < sizeMod := by
  unfold MarketData.updateStock MarketData.getNumOfIntervals at *
  cases umFind m.allStocks name with
  | none => exact hm
  | some st =>
      simp only [stdMax]
      split <;> assumption

/-- Every reachable state is consistent and its interval count is a `size_t` value. -/
theorem reachable_consistent (m : MarketData) (h : Reachable m) :
    m.Consistent ∧ m.getNumOfIntervals < sizeMod := by
  induction h with
  | empty => exact ⟨consistent_empty, sizeMod_pos⟩
  | addStock m name i v hi lo _ hi2 _ ih =>
      exact ⟨consistent_addStock m ih.1 name i v hi lo,
        intervals_addStock_lt m name i v hi lo ih.2 hi2⟩
  | updateStock m name i v hi lo _ hi2 _ ih =>
      exact ⟨consistent_updateStock m ih.1 name i v hi lo,
        intervals_updateStock_lt m name i v hi lo ih.2 hi2⟩

theorem reachable_ingest (m : MarketData) (r : Record) (hm : Reachable m) (hr : r.wf) :
    Reachable (ingest m r) := by
  unfold ingest
  cases m.found r.stockName with
  | true => exact Reachable.updateStock m _ _ _ _ _ hm hr.1 hr.2
  | false => exact Reachable.addStock m _ _ _ _ _ hm hr.1 hr.2

theorem reachable_readMarketData (rs : List Record) (hwf : ∀ r ∈ rs, r.wf) :
    Reachable (readMarketData rs) := by
  induction rs using List.reverseRecOn with
  | nil => exact Reachable.empty
  | append_singleton rs r ih =>
      rw [readMarketData_snoc]
      exact reachable_ingest _ r (ih (fun x hx => hwf x (List.mem_append_left _ hx)))
        (hwf r (List.mem_append_right _ (List.mem_singleton_self r)))

/-! ## The percentage loop -/

/-- With `getNumOfIntervals() + 1` representable in `size_t`, the loop started at `i`
with `k` intervals left returns the blocks of `i, ..., i + k - 1`. -/
theorem percentageLoop_eq (m : MarketData) (stocks : List Stock)
    (h1 : m.getStockorder.map m.getStock = stocks.map some)
    (hn : m.getNumOfIntervals + 1 < sizeMod) :
    ∀ k i fuel, i + k = m.getNumOfIntervals + 1 → k < fuel →
      percentageLoop m fuel i = Except.ok ((List.range' i k).flatMap (percentageBlock stocks)) := by
  intro k
  induction k with
  | zero =>
      intro i fuel hik hfuel
      cases fuel with
      | zero => omega
      | succ fuel =>
          have hi : ¬ i ≤ m.getNumOfIntervals := by omega
          simp [percentageLoop, hi]
  | succ k ih =>
      intro i fuel hik hfuel
      cases fuel with
      | zero => omega
      | succ fuel =>
          have hi : i ≤ m.getNumOfIntervals := by omega
          have hmod : (i + 1) % sizeMod = i + 1 := Nat.mod_eq_of_lt (by omega)
          simp only [percentageLoop, hi, if_true, percentageRowsAt_eq m i _ stocks h1, hmod,
            ih (i + 1) fuel (by omega) (by omega)]
          rw [List.range'_succ, List.flatMap_cons]
          rfl

/-- With `getNumOfIntervals() = SIZE_MAX` the loop test `i <= intervals` holds for every
`size_t` value of `i`: the loop never ends. -/
theorem percentageLoop_diverges (m : MarketData) (hm : m.Consistent)
    (hn : sizeMod - 1 ≤ m.getNumOfIntervals) :
    ∀ fuel i, i < sizeMod → percentageLoop m fuel i = Except.error Fault.outOfFuel := by
  intro fuel
  induction fuel with
  | zero => intro i _; rfl
  | succ fuel ih =>
      intro i hi
      obtain ⟨stocks, h1, _⟩ := lookups_of_consistent m hm m.getStockorder (fun _ hx => hx)
      have hle : i ≤ m.getNumOfIntervals := by omega
      simp only [percentageLoop, hle, if_true, percentageRowsAt_eq m i _ stocks h1,
        ih ((i + 1) % sizeMod) (Nat.mod_lt _ sizeMod_pos)]

theorem length_flatMap_block (stocks : List Stock) (l : List Nat) :
    (l.flatMap (percentageBlock stocks)).length = l.length * stocks.length := by
  induction l with
  | nil => simp
  | cons i tl ih =>
      rw [List.flatMap_cons, List.length_append, ih, List.length_cons]
      simp only [percentageBlock, List.length_map]
      rw [Nat.succ_mul]
      omega

theorem pairwise_percentageTable (stocks : List Stock) (n : Nat) :
    (percentageTable stocks n).Pairwise (fun a b => a.intervalOf ≤ b.intervalOf) := by
  unfold percentageTable
  rw [List.pairwise_flatMap]
  have hblock : ∀ i, ∀ x ∈ percentageBlock stocks i, x.intervalOf = i := by
    intro i x hx
    obtain ⟨st, _, rfl⟩ := List.mem_map.1 hx
    rfl
  constructor
  · intro i _
    rw [List.pairwise_iff_forall_sublist]
    intro a b hab
    have ha := hblock i a (hab.subset (List.mem_cons_self _ _))
    have hb := hblock i b (hab.subset (List.mem_cons_of_mem _ (List.mem_singleton_self _)))
    omega
  · apply List.Pairwise.imp _ (List.pairwise_lt_range' 1 n)
    intro i j hij x hx y hy
    rw [hblock i x hx, hblock j y hy]
    exact Nat.le_of_lt hij

/-! ## Keys of the registry -/

theorem umFind_eq_none_iff {κ α : Type} [DecidableEq κ] (m : List (κ × α)) (k : κ) :
    umFind m k = none ↔ k ∉ m.map Prod.fst := by
  induction m with
  | nil => simp [umFind]
  | cons hd tl ih =>
      obtain ⟨k0, v0⟩ := hd
      by_cases h : k0 = k
      · simp [umFind, h]
      · have h2 : ¬ k = k0 := fun e => h e.symm
        simp [umFind, h, h2, ih]

theorem umEmplace_keys {κ α : Type} [DecidableEq κ] (m : List (κ × α)) (k : κ) (v : α)
    (h : umFind m k = none) : (umEmplace m k v).map Prod.fst = m.map Prod.fst ++ [k] := by
  unfold umEmplace
  rw [h]
  simp

/-- In a reachable state the keys of `allStocks` are the entries of `stockOrder`, and
no symbol is listed twice. -/
theorem reachable_keys (m : MarketData) (h : Reachable m) :
    m.allStocks.map Prod.fst = m.getStockorder ∧ m.getStockorder.Nodup := by
  induction h with
  | empty => exact ⟨rfl, List.nodup_nil⟩
  | addStock m name i v hi lo _ _ _ ih =>
      unfold MarketData.addStock MarketData.getStockorder at *
      cases hf : umFind m.allStocks name with
      | some st => exact ih
      | none =>
          have hnot : name ∉ m.stockOrder := by
            rw [← ih.1]
            exact (umFind_eq_none_iff _ _).1 hf
          refine ⟨?_, ?_⟩
          · simp only []
            rw [umEmplace_keys _ _ _ hf, ih.1]
          · simp only []
            rw [List.nodup_append]
            refine ⟨ih.2, List.nodup_singleton _, ?_⟩
            intro a ha hb
            rw [List.mem_singleton] at hb
            exact hnot (hb ▸ ha)
  | updateStock m name i v hi lo _ _ _ ih =>
      unfold MarketData.updateStock MarketData.getStockorder at *
      cases hf : umFind m.allStocks name with
      | none => exact ih
      | some st =>
          simp only []
          rw [umModify_keys]
          exact ih

theorem umFind_of_mem {κ α : Type} [DecidableEq κ] (m : List (κ × α))
    (hnd : (m.map Prod.fst).Nodup) (p : κ × α) (hp : p ∈ m) : umFind m p.1 = some p.2 := by
  induction m with
  | nil => cases hp
  | cons hd tl ih =>
      obtain ⟨k0, v0⟩ := hd
      simp only [List.map_cons, List.nodup_cons] at hnd
      rcases List.mem_cons.1 hp with rfl | hp
      · simp [umFind]
      · have hne : ¬ k0 = p.1 := by
          intro e
          exact hnd.1 (e ▸ List.mem_map_of_mem Prod.fst hp)
        simp only [umFind, hne, if_false]
        exact ih hnd.2 hp

/-- In a consistent market the percentage loop never dereferences a null pointer. -/
theorem percentageLoop_no_nullDeref (m : MarketData) (hm : m.Consistent) (fuel : Nat) :
    ∀ i, percentageLoop m fuel i ≠ Except.error Fault.nullDeref := by
  induction fuel with
  | zero => intro i h; simp [percentageLoop] at h
  | succ fuel ih =>
      intro i h
      obtain ⟨stocks, h1, _⟩ := lookups_of_consistent m hm m.getStockorder (fun _ hx => hx)
      simp only [percentageLoop] at h
      by_cases hi : i ≤ m.getNumOfIntervals
      · simp only [hi, if_true, percentageRowsAt_eq m i _ stocks h1] at h
        cases hrec : percentageLoop m fuel ((i + 1) % sizeMod) with
        | error e =>
            rw [hrec] at h
            simp only [Except.error.injEq] at h
            rw [h] at hrec
            exact ih _ hrec
        | ok more => rw [hrec] at h; cases h
      · simp only [hi, if_false] at h
        cases h

/-! ## The interval map under updates -/

/-- The entry of a key after `updateStockInfo`: at the updated interval the old value
(or the zero inserted by `operator[]`) plus the volume, in `size_t`; elsewhere the
old entry. -/
theorem umFind_updateStockInfo (st : Stock) (interval volume : Nat) (high low : ℚ) (k : Nat) :
    umFind (st.updateStockInfo interval volume high low).getIntervalVolume k
      = if interval = k then
          some (((umFind st.getIntervalVolume k).getD 0 + volume) % sizeMod)
        else umFind st.getIntervalVolume k := by
  unfold Stock.getIntervalVolume Stock.updateStockInfo umIndexModify
  simp only [umFind_modify, umFind_emplace]
  by_cases h : interval = k
  · subst h
    cases umFind st.intervalVolume interval <;> simp
  · cases umFind st.intervalVolume k <;> simp [h]

/-! ## Aggregates in `size_t` arithmetic and permutations -/

theorem umFind_foldl_addRecord (i : Nat) (l : List Record) (st : Stock) :
    umFind (l.foldl Stock.addRecord st).getIntervalVolume i
      = if l.filter (fun r => r.interval = i) = [] then umFind st.getIntervalVolume i
        else some (((umFind st.getIntervalVolume i).getD 0
          + ((l.filter (fun r => r.interval = i)).map (fun r => r.volume)).sum) % sizeMod) := by
  induction l generalizing st with
  | nil => simp
  | cons r tl ih =>
      have hupd : umFind (st.addRecord r).getIntervalVolume i
          = if r.interval = i then
              some (((umFind st.getIntervalVolume i).getD 0 + r.volume) % sizeMod)
            else umFind st.getIntervalVolume i :=
        umFind_updateStockInfo st r.interval r.volume r.high r.low i
      rw [List.foldl_cons, ih (st.addRecord r), hupd]
      by_cases hr : r.interval = i
      · by_cases htl : tl.filter (fun r => r.interval = i) = []
        · simp [List.filter_cons, hr, htl]
        · simp only [List.filter_cons, hr, decide_True, if_true, htl, if_false,
            Option.getD_some, List.map_cons, List.sum_cons, reduceCtorEq]
          rw [sizeMod_eq]
          congr 1
          omega
      · simp [List.filter_cons, hr]

theorem totalVolume_foldl_mod (l : List Record) (st : Stock) (h : st.getTotalVolume < sizeMod) :
    (l.foldl Stock.addRecord st).getTotalVolume
      = (st.getTotalVolume + (l.map (fun r => r.volume)).sum) % sizeMod := by
  induction l generalizing st with
  | nil => simp [Nat.mod_eq_of_lt h]
  | cons r tl ih =>
      have h1 : (st.addRecord r).getTotalVolume = (st.getTotalVolume + r.volume) % sizeMod := rfl
      rw [List.foldl_cons, ih (st.addRecord r) (by rw [h1]; exact Nat.mod_lt _ sizeMod_pos), h1]
      simp only [List.map_cons, List.sum_cons]
      rw [sizeMod_eq]
      omega

/-- Total and interval map of the aggregate of a symbol's records, in `size_t`. -/
theorem stock_of_records_mod (r : Record) (rest : List Record) (hr : r.volume < sizeMod) :
    (rest.foldl Stock.addRecord (Stock.ofRecord r)).getTotalVolume
      = ((r :: rest).map (fun x => x.volume)).sum % sizeMod ∧
    ∀ i, umFind (rest.foldl Stock.addRecord (Stock.ofRecord r)).getIntervalVolume i
      = intervalMapOf (r :: rest) i := by
  constructor
  · have h0 : (Stock.ofRecord r).getTotalVolume < sizeMod := hr
    rw [totalVolume_foldl_mod rest (Stock.ofRecord r) h0]
    rfl
  · intro i
    have h0 : umFind (Stock.ofRecord r).getIntervalVolume i
        = if r.interval = i then some r.volume else none := by
      by_cases h : r.interval = i
      · simp [Stock.ofRecord, Stock.new, Stock.getIntervalVolume, umIndexModify, umEmplace,
          umFind, umModify, h]
      · simp [Stock.ofRecord, Stock.new, Stock.getIntervalVolume, umIndexModify, umEmplace,
          umFind, umModify, h]
    rw [umFind_foldl_addRecord, h0]
    unfold intervalMapOf
    by_cases h : r.interval = i
    · by_cases htl : rest.filter (fun r => r.interval = i) = []
      · simp [List.filter_cons, h, htl, Nat.mod_eq_of_lt hr]
      · simp [List.filter_cons, h, htl]
    · by_cases htl : rest.filter (fun r => r.interval = i) = []
      · simp [List.filter_cons, h, htl]
      · simp [List.filter_cons, h, htl]

theorem intervalMapOf_perm (l1 l2 : List Record) (hp : l1.Perm l2) (i : Nat) :
    intervalMapOf l1 i = intervalMapOf l2 i := by
  have hf := hp.filter (fun r => decide (r.interval = i))
  have hsum : ((l1.filter (fun r => decide (r.interval = i))).map (fun r => r.volume)).sum
      = ((l2.filter (fun r => decide (r.interval = i))).map (fun r => r.volume)).sum :=
    (hf.map _).sum_eq
  have hnil : l1.filter (fun r => decide (r.interval = i)) = []
      ↔ l2.filter (fun r => decide (r.interval = i)) = [] := by
    constructor
    · intro h; rw [h] at hf; exact hf.nil_eq.symm
    · intro h; rw [h] at hf; exact hf.eq_nil
  unfold intervalMapOf
  by_cases h : l1.filter (fun r => decide (r.interval = i)) = []
  · rw [if_pos h, if_pos (hnil.1 h)]
  · rw [if_neg h, if_neg (fun e => h (hnil.2 e)), hsum]

/-- Extrema of the aggregate of a symbol's records: bounds that are attained. -/
theorem extrema_of_records (r : Record) (rest : List Record) :
    (∀ x ∈ r :: rest, x.high ≤ (rest.foldl Stock.addRecord (Stock.ofRecord r)).getMaxHigh) ∧
    (∃ x ∈ r :: rest, (rest.foldl Stock.addRecord (Stock.ofRecord r)).getMaxHigh = x.high) ∧
    (∀ x ∈ r :: rest, (rest.foldl Stock.addRecord (Stock.ofRecord r)).getMinLow ≤ x.low) ∧
    (∃ x ∈ r :: rest, (rest.foldl Stock.addRecord (Stock.ofRecord r)).getMinLow = x.low) := by
  obtain ⟨a1, a2, a3⟩ := maxHigh_foldl_spec rest (Stock.ofRecord r)
  obtain ⟨b1, b2, b3⟩ := minLow_foldl_spec rest (Stock.ofRecord r)
  have hmax : (Stock.ofRecord r).getMaxHigh = r.high := rfl
  have hmin : (Stock.ofRecord r).getMinLow = r.low := rfl
  rw [hmax] at a1 a3
  rw [hmin] at b1 b3
  refine ⟨?_, ?_, ?_, ?_⟩
  · intro x hx
    rcases List.mem_cons.1 hx with rfl | hx
    · exact a1
    · exact a2 x hx
  · rcases a3 with h | ⟨x, hx, h⟩
    · exact ⟨r, List.mem_cons_self _ _, h⟩
    · exact ⟨x, List.mem_cons_of_mem _ hx, h⟩
  · intro x hx
    rcases List.mem_cons.1 hx with rfl | hx
    · exact b1
    · exact b2 x hx
  · rcases b3 with h | ⟨x, hx, h⟩
    · exact ⟨r, List.mem_cons_self _ _, h⟩
    · exact ⟨x, List.mem_cons_of_mem _ hx, h⟩

/-- The aggregates of two permuted record lists of one symbol hold the same data. -/
theorem stockOfRecords_perm (l1 l2 : List Record) (hp : l1.Perm l2)
    (hwf : ∀ r ∈ l1, r.volume < sizeMod) (st1 : Stock) (h1 : stockOfRecords l1 = some st1) :
    ∃ st2, stockOfRecords l2 = some st2 ∧
      st1.getTotalVolume = st2.getTotalVolume ∧
      (∀ i, umFind st1.getIntervalVolume i = umFind st2.getIntervalVolume i) ∧
      st1.getMaxHigh = st2.getMaxHigh ∧
      st1.getMinLow = st2.getMinLow := by
  cases l1 with
  | nil => cases h1
  | cons r1 t1 =>
      cases l2 with
      | nil => exact absurd hp.eq_nil (List.cons_ne_nil _ _)
      | cons r2 t2 =>
          simp only [stockOfRecords, Option.some.injEq] at h1
          subst h1
          refine ⟨_, rfl, ?_, ?_, ?_, ?_⟩
          · have hr1 := hwf r1 (List.mem_cons_self _ _)
            have hr2 := hwf r2 (hp.mem_iff.2 (List.mem_cons_self _ _))
            rw [(stock_of_records_mod r1 t1 hr1).1, (stock_of_records_mod r2 t2 hr2).1,
              (hp.map (fun x => x.volume)).sum_eq]
          · intro i
            have hr1 := hwf r1 (List.mem_cons_self _ _)
            have hr2 := hwf r2 (hp.mem_iff.2 (List.mem_cons_self _ _))
            rw [(stock_of_records_mod r1 t1 hr1).2 i, (stock_of_records_mod r2 t2 hr2).2 i]
            exact intervalMapOf_perm _ _ hp i
          · obtain ⟨u1, ⟨x1, hx1, e1⟩, _, _⟩ := extrema_of_records r1 t1
            obtain ⟨u2, ⟨x2, hx2, e2⟩, _, _⟩ := extrema_of_records r2 t2
            apply le_antisymm
            · rw [e1]; exact u2 x1 (hp.mem_iff.1 hx1)
            · rw [e2]; exact u1 x2 (hp.mem_iff.2 hx2)
          · obtain ⟨_, _, u1, ⟨x1, hx1, e1⟩⟩ := extrema_of_records r1 t1
            obtain ⟨_, _, u2, ⟨x2, hx2, e2⟩⟩ := extrema_of_records r2 t2
            apply le_antisymm
            · rw [e2]; exact u1 x2 (hp.mem_iff.2 hx2)
            · rw [e1]; exact u2 x1 (hp.mem_iff.1 hx1)

theorem maxInterval_attained (rs : List Record) (hne : rs ≠ []) :
    ∃ r ∈ rs, r.interval = maxInterval rs := by
  induction rs with
  | nil => exact absurd rfl hne
  | cons hd tl ih =>
      by_cases htl : tl = []
      · subst htl
        exact ⟨hd, List.mem_cons_self _ _, by simp [maxInterval]⟩
      · obtain ⟨r, hr, hreq⟩ := ih htl
        by_cases hle : maxInterval tl ≤ hd.interval
        · exact ⟨hd, List.mem_cons_self _ _, by simp [maxInterval, hle]⟩
        · refine ⟨r, List.mem_cons_of_mem _ hr, ?_⟩
          simp only [maxInterval]
          omega

theorem maxInterval_perm (rs1 rs2 : List Record) (hp : rs1.Perm rs2) :
    maxInterval rs1 = maxInterval rs2 := by
  by_cases h1 : rs1 = []
  · subst h1
    rw [← hp.nil_eq]
  · have h2 : rs2 ≠ [] := fun e => h1 (by rw [e] at hp; exact hp.eq_nil)
    obtain ⟨r1, hr1, e1⟩ := maxInterval_attained rs1 h1
    obtain ⟨r2, hr2, e2⟩ := maxInterval_attained rs2 h2
    apply Nat.le_antisymm
    · rw [← e1]; exact le_maxInterval rs2 r1 (hp.mem_iff.1 hr1)
    · rw [← e2]; exact le_maxInterval rs1 r2 (hp.mem_iff.2 hr2)

/-! ## Rows of the report after reading -/

theorem scenario_state :
    readMarketData scenarioRecords
      = ⟨[("VOD.L", ⟨"VOD.L", 100, [(1, 80), (2, 20)], 184.1, 182.4⟩),
          ("BT.LN", ⟨"BT.LN", 100, [(1, 25), (2, 75)], 449.8, 448.2⟩)],
         ["VOD.L", "BT.LN"], 2⟩ := by
  simp [scenarioRecords, readMarketData, ingest, MarketData.found, MarketData.updateStock,
    MarketData.addStock, MarketData.empty, umFind, umEmplace, umModify, umIndexModify,
    Stock.new, Stock.updateStockInfo, stdMax, stdMin, sizeMod]

/-- A symbol without a record at interval `i` has no key `i` in its interval map. -/
theorem umFind_none_of_no_record (r : Record) (rest : List Record) (i : Nat)
    (h : ∀ x ∈ r :: rest, x.interval ≠ i) :
    umFind (rest.foldl Stock.addRecord (Stock.ofRecord r)).getIntervalVolume i = none := by
  have hr : ¬ r.interval = i := h r (List.mem_cons_self _ _)
  have hrest : rest.filter (fun x => x.interval = i) = [] := by
    rw [List.filter_eq_nil_iff]
    intro x hx
    simpa using h x (List.mem_cons_of_mem _ hx)
  rw [umFind_foldl_addRecord, if_pos hrest]
  simp [Stock.ofRecord, Stock.new, Stock.getIntervalVolume, umIndexModify, umEmplace,
    umFind, umModify, hr]

theorem mem_recordsOf (s : String) (rs : List Record) (r : Record) :
    r ∈ recordsOf s rs ↔ r ∈ rs ∧ r.stockName = s := by
  simp [recordsOf, List.mem_filter]

/-- The stocks found for the listed names are the stocks stored under their names. -/
theorem getStock_of_mem_lookups (m : MarketData) (hm : m.Consistent) (l : List String)
    (stocks : List Stock) (h1 : l.map m.getStock = stocks.map some) (st : Stock)
    (hst : st ∈ stocks) : m.getStock st.getStockName = some st := by
  have : some st ∈ l.map m.getStock := by
    rw [h1]; exact List.mem_map_of_mem some hst
  obtain ⟨name, _, hname⟩ := List.mem_map.1 this
  rw [hm.2 name st hname]
  exact hname

theorem mem_lookups_of_getStock (m : MarketData) (hm : m.Consistent)
    (stocks : List Stock) (h1 : m.getStockorder.map m.getStock = stocks.map some)
    (s : String) (st : Stock) (hst : m.getStock s = some st) : st ∈ stocks := by
  have hs : s ∈ m.getStockorder := (hm.1 s).2 (by rw [hst]; rfl)
  have : some st ∈ stocks.map some := by
    rw [← h1, ← hst]; exact List.mem_map_of_mem m.getStock hs
  obtain ⟨st2, h2, e⟩ := List.mem_map.1 this
  cases e
  exact h2

theorem highLowRows_map (m : MarketData) (H L : String → ℚ) (l : List String)
    (h : ∀ name ∈ l, ∃ st, m.getStock name = some st ∧ st.getMaxHigh = H name ∧
      st.getMinLow = L name) :
    highLowRows m l
      = Except.ok (l.map (fun name => OutputLine.highLow name (H name) (L name))) := by
  induction l with
  | nil => rfl
  | cons name tl ih =>
      obtain ⟨st, hst, hH, hL⟩ := h name (List.mem_cons_self _ _)
      simp only [highLowRows, hst, ih (fun x hx => h x (List.mem_cons_of_mem _ hx)), hH, hL,
        List.map_cons]

theorem extrema_readMarketData (rs : List Record) (s : String) (st : Stock)
    (hst : (readMarketData rs).getStock s = some st) :
    st.getMaxHigh = maxHighOf s rs ∧ st.getMinLow = minLowOf s rs ∧
    (∀ r ∈ rs, r.stockName = s → r.high ≤ maxHighOf s rs ∧ minLowOf s rs ≤ r.low) ∧
    (∃ r ∈ rs, r.stockName = s ∧ r.high = maxHighOf s rs) ∧
    (∃ r ∈ rs, r.stockName = s ∧ r.low = minLowOf s rs) := by
  rw [getStock_readMarketData] at hst
  cases hl : recordsOf s rs with
  | nil => rw [hl] at hst; cases hst
  | cons r rest =>
      rw [hl] at hst
      simp only [stockOfRecords, Option.some.injEq] at hst
      have hmax : st.getMaxHigh = maxHighOf s rs := by
        unfold maxHighOf
        rw [hl, ← hst, maxHigh_foldl]
        rfl
      have hmin : st.getMinLow = minLowOf s rs := by
        unfold minLowOf
        rw [hl, ← hst, minLow_foldl]
        rfl
      obtain ⟨u1, ⟨x1, hx1, e1⟩, u2, ⟨x2, hx2, e2⟩⟩ := extrema_of_records r rest
      rw [hst] at u1 e1 u2 e2
      rw [hmax] at u1 e1
      rw [hmin] at u2 e2
      rw [← hl] at u1 hx1 u2 hx2
      refine ⟨hmax, hmin, ?_, ?_, ?_⟩
      · intro x hx hxs
        have hmem := (mem_recordsOf s rs x).2 ⟨hx, hxs⟩
        exact ⟨u1 x hmem, u2 x hmem⟩
      · have := (mem_recordsOf s rs x1).1 hx1
        exact ⟨x1, this.1, this.2, e1.symm⟩
      · have := (mem_recordsOf s rs x2).1 hx2
        exact ⟨x2, this.1, this.2, e2.symm⟩

theorem maxInterval_succ_lt (rs : List Record) (h : ∀ r ∈ rs, r.interval + 1 < sizeMod) :
    maxInterval rs + 1 < sizeMod := by
  by_cases hne : rs = []
  · subst hne
    simp only [maxInterval]
    rw [sizeMod_eq]
    omega
  · obtain ⟨r, hr, e⟩ := maxInterval_attained rs hne
    rw [← e]
    exact h r hr

theorem mem_percentageTable (stocks : List Stock) (n : Nat) (x : OutputLine)
    (hx : x ∈ percentageTable stocks n) : ∃ name i p, x = OutputLine.percentage name i p := by
  unfold percentageTable at hx
  obtain ⟨i, _, hxi⟩ := List.mem_flatMap.1 hx
  obtain ⟨st, _, rfl⟩ := List.mem_map.1 hxi
  exact ⟨_, _, _, rfl⟩

theorem symbol_flatMap_block (stocks : List Stock) (l : List Nat) :
    (l.flatMap (percentageBlock stocks)).map OutputLine.symbol
      = (List.replicate l.length ((stocks.map Stock.getStockName).map some)).flatten := by
  induction l with
  | nil => rfl
  | cons i tl ih =>
      rw [List.flatMap_cons, List.map_append, ih, List.length_cons, List.replicate_succ,
        List.flatten_cons]
      congr 1
      exact symbol_percentage_rows i stocks

/-! ## Volume conservation -/

/-- C1: volume conservation.  The constructor establishes `totalVolume = sum of the
values of intervalVolume` (in `size_t` arithmetic) for every `size_t` volume,
`updateStockInfo` preserves it for every argument, and after reading any list of
records with `size_t` volumes it holds for every stock stored in the market. -/
theorem volume_conservation :
    (∀ (stockName : String) (interval volume : Nat) (high low : ℚ), volume < sizeMod →
        (Stock.new stockName interval volume high low).Conserved) ∧
    (∀ (st : Stock) (interval volume : Nat) (high low : ℚ), st.Conserved →
        (st.updateStockInfo interval volume high low).Conserved) ∧
    (∀ rs : List Record, (∀ r ∈ rs, r.wf) →
        ∀ p ∈ (readMarketData rs).allStocks, p.2.Conserved) := by
  refine ⟨conserved_new, conserved_update, ?_⟩
  intro rs hwf
  apply foldl_ingest_forall Stock.Conserved rs
  · intro r hr
    exact conserved_new _ _ _ _ _ (hwf r hr).2
  · intro r _ st hst
    exact conserved_update st _ _ _ _ hst
  · intro p hp
    simp [MarketData.empty] at hp

/-- Witness of C1 on a two-symbol input with a repeated and a new interval. -/
theorem volume_conservation_witness :
    (Stock.new "A" 1 10 5 1).Conserved ∧
    ((Stock.new "A" 1 10 5 1).updateStockInfo 2 7 6 2).Conserved ∧
    (∀ p ∈ (readMarketData
        [⟨"A", 1, 10, 5, 1⟩, ⟨"B", 1, 5, 6, 2⟩, ⟨"A", 1, 4, 7, 3⟩, ⟨"B", 2, 5, 6, 2⟩]).allStocks,
      p.2.Conserved) :=
  ⟨volume_conservation.1 "A" 1 10 5 1 (by decide),
   volume_conservation.2.1 _ 2 7 6 2 (volume_conservation.1 "A" 1 10 5 1 (by decide)),
   volume_conservation.2.2 _ (by decide)⟩

/-! ## Aggregation against its reference definition -/

/-- C2: aggregation equals its reference definition.  For a symbol `s` occurring in the
records, whose volumes sum to a `size_t` value, the stock of `s` after reading has
`getTotalVolume()` equal to the sum of the volumes of the records of `s`, and
`getVolumeAtInterval(i)` equal to the sum of the volumes of the records of `s` at
interval `i`, for every `i` (repeated and out-of-order intervals accumulate). -/
theorem aggregation_reference (rs : List Record) (s : String)
    (hs : ∃ r ∈ rs, r.stockName = s) (hsum : volumeOf s rs < sizeMod) :
    ∃ st, (readMarketData rs).getStock s = some st ∧
      st.getTotalVolume = volumeOf s rs ∧
      ∀ i, st.getVolumeAtInterval i = volumeAt s i rs :=
  getStock_volumes rs s hs hsum

/-- Witness of C2: symbol `A` with a repeated interval, arriving out of order. -/
theorem aggregation_reference_witness :
    ∃ st, (readMarketData
        [⟨"A", 2, 10, 5, 1⟩, ⟨"B", 1, 5, 6, 2⟩, ⟨"A", 1, 4, 7, 3⟩, ⟨"A", 2, 5, 6, 2⟩]).getStock "A"
          = some st ∧
      st.getTotalVolume = volumeOf "A"
        [⟨"A", 2, 10, 5, 1⟩, ⟨"B", 1, 5, 6, 2⟩, ⟨"A", 1, 4, 7, 3⟩, ⟨"A", 2, 5, 6, 2⟩] ∧
      ∀ i, st.getVolumeAtInterval i = volumeAt "A" i
        [⟨"A", 2, 10, 5, 1⟩, ⟨"B", 1, 5, 6, 2⟩, ⟨"A", 1, 4, 7, 3⟩, ⟨"A", 2, 5, 6, 2⟩] :=
  aggregation_reference _ "A" ⟨⟨"A", 2, 10, 5, 1⟩, by decide, rfl⟩ (by decide)

/-! ## The global maximum interval -/

/-- C8: global maximum interval.  After reading any list of records,
`getNumOfIntervals()` is the maximum interval number of the records (`0` for the
empty list): it bounds every record's interval and, for a non-empty list, is the
interval of one of them.  The `updateStock` branch and the `addStock` branch of an
ingest step both set it to `max(old value, interval)`, so a step never decreases it. -/
theorem global_max_interval :
    (∀ rs : List Record, (readMarketData rs).getNumOfIntervals = maxInterval rs ∧
        (∀ r ∈ rs, r.interval ≤ (readMarketData rs).getNumOfIntervals) ∧
        (rs ≠ [] → ∃ r ∈ rs, r.interval = (readMarketData rs).getNumOfIntervals)) ∧
    (readMarketData []).getNumOfIntervals = 0 ∧
    (∀ (m : MarketData) (name : String) (i v : Nat) (hi lo : ℚ), m.found name = true →
        (m.updateStock name i v hi lo).getNumOfIntervals = max m.getNumOfIntervals i) ∧
    (∀ (m : MarketData) (name : String) (i v : Nat) (hi lo : ℚ), m.found name = false →
        (m.addStock name i v hi lo).getNumOfIntervals = max m.getNumOfIntervals i) ∧
    (∀ (m : MarketData) (r : Record),
        (ingest m r).getNumOfIntervals = max m.getNumOfIntervals r.interval ∧
        m.getNumOfIntervals ≤ (ingest m r).getNumOfIntervals) := by
  refine ⟨?_, rfl, ?_, ?_, ?_⟩
  · intro rs
    refine ⟨intervals_readMarketData rs, ?_, ?_⟩
    · rw [intervals_readMarketData]; exact le_maxInterval rs
    · rw [intervals_readMarketData]
      intro hne
      induction rs with
      | nil => exact absurd rfl hne
      | cons hd tl ih =>
          by_cases htl : tl = []
          · subst htl
            exact ⟨hd, List.mem_cons_self _ _, by simp [maxInterval]⟩
          · obtain ⟨r, hr, hreq⟩ := ih htl
            by_cases hle : maxInterval tl ≤ hd.interval
            · exact ⟨hd, List.mem_cons_self _ _, by simp [maxInterval, hle]⟩
            · refine ⟨r, List.mem_cons_of_mem _ hr, ?_⟩
              simp only [maxInterval]
              omega
  · intro m name i v hi lo h
    rw [intervals_updateStock m name i v hi lo h, stdMax_nat]
  · intro m name i v hi lo h
    rw [intervals_addStock m name i v hi lo h, stdMax_nat]
  · intro m r
    rw [intervals_ingest, stdMax_nat]
    exact ⟨rfl, Nat.le_max_left _ _⟩

/-- Witness of C8 on records whose largest interval comes first. -/
theorem global_max_interval_witness :
    (∃ r ∈ ([⟨"A", 3, 10, 5, 1⟩, ⟨"B", 1, 5, 6, 2⟩, ⟨"A", 2, 4, 7, 3⟩] : List Record),
        r.interval = (readMarketData
          [⟨"A", 3, 10, 5, 1⟩, ⟨"B", 1, 5, 6, 2⟩, ⟨"A", 2, 4, 7, 3⟩]).getNumOfIntervals) ∧
    ((readMarketData [⟨"A", 3, 10, 5, 1⟩]).updateStock "A" 7 1 1 1).getNumOfIntervals
        = max (readMarketData [⟨"A", 3, 10, 5, 1⟩]).getNumOfIntervals 7 ∧
    ((readMarketData [⟨"A", 3, 10, 5, 1⟩]).addStock "B" 2 1 1 1).getNumOfIntervals
        = max (readMarketData [⟨"A", 3, 10, 5, 1⟩]).getNumOfIntervals 2 :=
  ⟨(global_max_interval.1 _).2.2 (by decide),
   global_max_interval.2.2.1 _ "A" 7 1 1 1 (by decide),
   global_max_interval.2.2.2.1 _ "B" 2 1 1 1 (by decide)⟩

/-! ## Percentages of a symbol -/

/-- C3 as stated fails when the volumes of a symbol overflow `size_t`: the records
`(A,1,2^63)`, `(A,2,2^63)`, `(A,3,1)` have intervals `>= 1` and leave `A` with a total
volume of `1 > 0`, while its interval volumes are `2^63`, `2^63` and `1`, so the
percentages over the intervals `1..3` do not add up to `100`. -/
theorem percentage_sum_overflow_counterexample :
    (∀ r ∈ ([⟨"A", 1, 2 ^ 63, 1, 1⟩, ⟨"A", 2, 2 ^ 63, 1, 1⟩, ⟨"A", 3, 1, 1, 1⟩] : List Record),
        r.wf ∧ 1 ≤ r.interval) ∧
    ∃ st, (readMarketData
        [⟨"A", 1, 2 ^ 63, 1, 1⟩, ⟨"A", 2, 2 ^ 63, 1, 1⟩, ⟨"A", 3, 1, 1, 1⟩]).getStock "A" = some st ∧
      0 < st.getTotalVolume ∧
      percentageSum st (readMarketData
        [⟨"A", 1, 2 ^ 63, 1, 1⟩, ⟨"A", 2, 2 ^ 63, 1, 1⟩, ⟨"A", 3, 1, 1, 1⟩]).getNumOfIntervals
        ≠ Percentage.value 100 := by
  refine ⟨by decide, ⟨"A", 1, [(1, 2 ^ 63), (2, 2 ^ 63), (3, 1)], 1, 1⟩, by decide, by decide, ?_⟩
  have hn : (readMarketData
      [⟨"A", 1, 2 ^ 63, 1, 1⟩, ⟨"A", 2, 2 ^ 63, 1, 1⟩, ⟨"A", 3, 1, 1, 1⟩]).getNumOfIntervals = 3 := by
    decide
  rw [hn]
  simp only [percentageSum, percentagesOf, List.range', List.map, List.foldl,
    Stock.getVolumeAtInterval, Stock.getTotalVolume, umFind, percentageOfVolumeTraded,
    Percentage.add]
  norm_num

/-- C3, amended: for records with intervals `>= 1`, a stored symbol with a positive
total volume, and volumes of that symbol summing to a `size_t` value, the
percentages `(getVolumeAtInterval(i) / getTotalVolume()) * 100` over
`i = 1 .. getNumOfIntervals()` add up to exactly `100` in rational arithmetic. -/
theorem percentage_sum_hundred (rs : List Record) (hint : ∀ r ∈ rs, 1 ≤ r.interval)
    (s : String) (st : Stock) (hst : (readMarketData rs).getStock s = some st)
    (hpos : 0 < st.getTotalVolume) (hsum : volumeOf s rs < sizeMod) :
    percentageSum st (readMarketData rs).getNumOfIntervals = Percentage.value 100 :=
  percentageSum_readMarketData rs hint s st hst hpos hsum

/-- Witness of C3 (amended): symbol `A` has volume at intervals 1 and 3 only. -/
theorem percentage_sum_hundred_witness :
    percentageSum ⟨"A", 40, [(3, 30), (1, 10)], 5, 1⟩
      (readMarketData [⟨"A", 3, 30, 5, 1⟩, ⟨"B", 2, 5, 6, 2⟩, ⟨"A", 1, 10, 4, 3⟩]).getNumOfIntervals
      = Percentage.value 100 :=
  percentage_sum_hundred [⟨"A", 3, 30, 5, 1⟩, ⟨"B", 2, 5, 6, 2⟩, ⟨"A", 1, 10, 4, 3⟩]
    (by decide) "A" ⟨"A", 40, [(3, 30), (1, 10)], 5, 1⟩ (by decide) (by decide) (by decide)

/-- C4: at the failing input, the single record `(A,1,0,5,1)`, the total volume of
`A` is `0` and `outputRequirements` divides `0` by `0`: the percentage row of `A`
carries `nan`, not `0`. -/
theorem zero_total_volume_gives_nan :
    (readMarketData [⟨"A", 1, 0, 5, 1⟩]).getStock "A" = some ⟨"A", 0, [(1, 0)], 5, 1⟩ ∧
    outputRequirements 2 (readMarketData [⟨"A", 1, 0, 5, 1⟩])
      = Except.ok [OutputLine.percentage "A" 1 Percentage.nan, OutputLine.delimiter,
          OutputLine.highLow "A" 5 1] ∧
    ∀ v : Nat, percentageOfVolumeTraded v 0 ≠ Percentage.value 0 := by
  refine ⟨by decide, by decide, ?_⟩
  intro v
  unfold percentageOfVolumeTraded
  by_cases h : v = 0 <;> simp [h]

/-! ## Running extrema -/

/-- C5: running extrema.  For a non-empty list of records of one symbol, the first
ingested through the constructor and the rest through `updateStockInfo`,
`getMaxHigh()` is at least the high of every record and is the high of one of them
(it is their maximum, the left fold of `max`), and `getMinLow()` is at most the low
of every record and is the low of one of them (their minimum). -/
theorem running_extrema (r : Record) (rest : List Record) :
    (∀ x ∈ r :: rest, x.high ≤ (rest.foldl Stock.addRecord (Stock.ofRecord r)).getMaxHigh) ∧
    (∃ x ∈ r :: rest, (rest.foldl Stock.addRecord (Stock.ofRecord r)).getMaxHigh = x.high) ∧
    (rest.foldl Stock.addRecord (Stock.ofRecord r)).getMaxHigh
      = (rest.map (fun x => x.high)).foldl max r.high ∧
    (∀ x ∈ r :: rest, (rest.foldl Stock.addRecord (Stock.ofRecord r)).getMinLow ≤ x.low) ∧
    (∃ x ∈ r :: rest, (rest.foldl Stock.addRecord (Stock.ofRecord r)).getMinLow = x.low) ∧
    (rest.foldl Stock.addRecord (Stock.ofRecord r)).getMinLow
      = (rest.map (fun x => x.low)).foldl min r.low := by
  obtain ⟨a1, a2, a3⟩ := maxHigh_foldl_spec rest (Stock.ofRecord r)
  obtain ⟨b1, b2, b3⟩ := minLow_foldl_spec rest (Stock.ofRecord r)
  have hmax : (Stock.ofRecord r).getMaxHigh = r.high := rfl
  have hmin : (Stock.ofRecord r).getMinLow = r.low := rfl
  rw [hmax] at a1 a3
  rw [hmin] at b1 b3
  refine ⟨?_, ?_, ?_, ?_, ?_, ?_⟩
  · intro x hx
    rcases List.mem_cons.1 hx with rfl | hx
    · exact a1
    · exact a2 x hx
  · rcases a3 with h | ⟨x, hx, h⟩
    · exact ⟨r, List.mem_cons_self _ _, h⟩
    · exact ⟨x, List.mem_cons_of_mem _ hx, h⟩
  · rw [maxHigh_foldl, hmax]
  · intro x hx
    rcases List.mem_cons.1 hx with rfl | hx
    · exact b1
    · exact b2 x hx
  · rcases b3 with h | ⟨x, hx, h⟩
    · exact ⟨r, List.mem_cons_self _ _, h⟩
    · exact ⟨x, List.mem_cons_of_mem _ hx, h⟩
  · rw [minLow_foldl, hmin]

/-- Witness of C5: both bounds at the second of three records of one symbol. -/
theorem running_extrema_witness :
    (9 : ℚ) ≤ (([⟨"A", 2, 4, 9, 3⟩, ⟨"A", 3, 4, 7, 1⟩] : List Record).foldl Stock.addRecord
        (Stock.ofRecord ⟨"A", 1, 10, 5, 2⟩)).getMaxHigh ∧
    (([⟨"A", 2, 4, 9, 3⟩, ⟨"A", 3, 4, 7, 1⟩] : List Record).foldl Stock.addRecord
        (Stock.ofRecord ⟨"A", 1, 10, 5, 2⟩)).getMinLow ≤ (3 : ℚ) :=
  ⟨(running_extrema ⟨"A", 1, 10, 5, 2⟩ [⟨"A", 2, 4, 9, 3⟩, ⟨"A", 3, 4, 7, 1⟩]).1
      ⟨"A", 2, 4, 9, 3⟩ (by decide),
   (running_extrema ⟨"A", 1, 10, 5, 2⟩ [⟨"A", 2, 4, 9, 3⟩, ⟨"A", 3, 4, 7, 1⟩]).2.2.2.1
      ⟨"A", 2, 4, 9, 3⟩ (by decide)⟩

/-! ## Postconditions of the two `Stock` operations -/

/-- C10: create postcondition.  The stock built by the constructor from
`(symbol, interval, volume, high, low)` has that name, total volume `volume`, an
interval map with the single entry `interval -> volume`, `maxHigh = high` and
`minLow = low`. -/
theorem create_postcondition (symbol : String) (interval volume : Nat) (high low : ℚ) :
    (Stock.new symbol interval volume high low).getStockName = symbol ∧
    (Stock.new symbol interval volume high low).getTotalVolume = volume ∧
    (Stock.new symbol interval volume high low).getIntervalVolume = [(interval, volume)] ∧
    (Stock.new symbol interval volume high low).getMaxHigh = high ∧
    (Stock.new symbol interval volume high low).getMinLow = low := by
  refine ⟨rfl, rfl, ?_, rfl, rfl⟩
  simp [Stock.getIntervalVolume, Stock.new, umIndexModify, umEmplace, umFind, umModify]

/-! ## First-seen ordering -/

/-- C6 as stated fails at `getNumOfIntervals() = SIZE_MAX`: after the records
`(B,1,5,6,2)` and `(A, 2^64 - 1, 10, 5, 1)` the order list is `[B, A]`, but the
percentage loop never ends, so `outputRequirements` never returns, whatever the number
of loop tests allowed: the percentage table is never completed and the high/low table
is never written, so the report does not enumerate the symbols in two tables. -/
theorem first_seen_tables_never_completed :
    (∀ r ∈ ([⟨"B", 1, 5, 6, 2⟩, ⟨"A", 2 ^ 64 - 1, 10, 5, 1⟩] : List Record), r.wf) ∧
    (readMarketData [⟨"B", 1, 5, 6, 2⟩, ⟨"A", 2 ^ 64 - 1, 10, 5, 1⟩]).getStockorder
      = ["B", "A"] ∧
    ∀ fuel, outputRequirements fuel
        (readMarketData [⟨"B", 1, 5, 6, 2⟩, ⟨"A", 2 ^ 64 - 1, 10, 5, 1⟩])
      = Except.error Fault.outOfFuel := by
  refine ⟨by decide, by decide, ?_⟩
  intro fuel
  have hn : (readMarketData
      [⟨"B", 1, 5, 6, 2⟩, ⟨"A", 2 ^ 64 - 1, 10, 5, 1⟩]).getNumOfIntervals = 2 ^ 64 - 1 := by
    decide
  have hloop := percentageLoop_diverges
    (readMarketData [⟨"B", 1, 5, 6, 2⟩, ⟨"A", 2 ^ 64 - 1, 10, 5, 1⟩])
    (consistent_readMarketData _) (by rw [hn]; exact Nat.le_of_eq rfl) fuel 1
    (by rw [sizeMod_eq]; omega)
  unfold outputRequirements
  rw [hloop]

/-- C6, amended: after reading any list of records, `getStockorder()` is the list of
distinct symbols of the input in order of first occurrence: it has no duplicates and
holds exactly the symbols of the records.  The rows of the percentage table for each
interval `i` and the rows of the high/low table are produced without a fault and
carry the symbols of `getStockorder()` in order.  When every interval of the input is
below `SIZE_MAX`, `outputRequirements` returns, given enough loop tests, and its
output is `getNumOfIntervals()` percentage blocks, each enumerating the symbols of
`getStockorder()` in order, then the delimiter, then the high/low rows enumerating
the symbols of `getStockorder()` in order. -/
theorem first_seen_ordering (rs : List Record) :
    (readMarketData rs).getStockorder = firstSeen (rs.map (fun r => r.stockName)) ∧
    (readMarketData rs).getStockorder.Nodup ∧
    (∀ s, s ∈ (readMarketData rs).getStockorder ↔ ∃ r ∈ rs, r.stockName = s) ∧
    (∀ i, ∃ rows,
      percentageRowsAt (readMarketData rs) i (readMarketData rs).getStockorder = Except.ok rows ∧
      rows.map OutputLine.symbol = (readMarketData rs).getStockorder.map some) ∧
    (∃ rows,
      highLowRows (readMarketData rs) (readMarketData rs).getStockorder = Except.ok rows ∧
      rows.map OutputLine.symbol = (readMarketData rs).getStockorder.map some) ∧
    ((∀ r ∈ rs, r.interval + 1 < sizeMod) →
      ∀ fuel, (readMarketData rs).getNumOfIntervals < fuel →
        ∃ pcts hls,
          outputRequirements fuel (readMarketData rs)
            = Except.ok (pcts ++ [OutputLine.delimiter] ++ hls) ∧
          pcts.map OutputLine.symbol
            = (List.replicate (readMarketData rs).getNumOfIntervals
                ((readMarketData rs).getStockorder.map some)).flatten ∧
          hls.map OutputLine.symbol = (readMarketData rs).getStockorder.map some) := by
  have hm := consistent_readMarketData rs
  obtain ⟨stocks, h1, h2⟩ :=
    lookups_of_consistent _ hm (readMarketData rs).getStockorder (fun _ hx => hx)
  have hlen : stocks.length = (readMarketData rs).getStockorder.length := by
    rw [← h2, List.length_map]
  refine ⟨stockOrder_readMarketData rs, ?_, ?_, ?_, ?_, ?_⟩
  · rw [stockOrder_readMarketData]; exact nodup_firstSeen _
  · intro s
    rw [stockOrder_readMarketData, mem_firstSeen, List.mem_map]
  · intro i
    refine ⟨_, percentageRowsAt_eq _ i _ stocks h1, ?_⟩
    rw [symbol_percentage_rows, h2]
  · exact ⟨_, highLowRows_eq _ _ stocks h1, symbol_highLow_rows _ stocks hlen⟩
  · intro hint fuel hfuel
    have hn : (readMarketData rs).getNumOfIntervals + 1 < sizeMod := by
      rw [intervals_readMarketData]
      exact maxInterval_succ_lt rs hint
    have hloop := percentageLoop_eq (readMarketData rs) stocks h1 hn
      (readMarketData rs).getNumOfIntervals 1 fuel (by omega) hfuel
    refine ⟨(List.range' 1 (readMarketData rs).getNumOfIntervals).flatMap
        (percentageBlock stocks),
      List.zipWith (fun name st => OutputLine.highLow name st.getMaxHigh st.getMinLow)
        (readMarketData rs).getStockorder stocks,
      ?_, ?_, symbol_highLow_rows _ stocks hlen⟩
    · unfold outputRequirements
      rw [hloop, highLowRows_eq _ _ stocks h1]
    · rw [symbol_flatMap_block, List.length_range', h2]

/-- Witness of C6 (amended): the run on an interleaved input returns, and its two
tables carry the symbols in first-seen order. -/
theorem first_seen_ordering_witness :
    ∃ pcts hls,
      outputRequirements 3 (readMarketData
          [⟨"B", 1, 5, 6, 2⟩, ⟨"A", 1, 10, 5, 1⟩, ⟨"B", 2, 4, 7, 1⟩])
        = Except.ok (pcts ++ [OutputLine.delimiter] ++ hls) ∧
      pcts.map OutputLine.symbol
        = (List.replicate (readMarketData
              [⟨"B", 1, 5, 6, 2⟩, ⟨"A", 1, 10, 5, 1⟩, ⟨"B", 2, 4, 7, 1⟩]).getNumOfIntervals
            ((readMarketData
              [⟨"B", 1, 5, 6, 2⟩, ⟨"A", 1, 10, 5, 1⟩, ⟨"B", 2, 4, 7, 1⟩]).getStockorder.map
                some)).flatten ∧
      hls.map OutputLine.symbol
        = (readMarketData
            [⟨"B", 1, 5, 6, 2⟩, ⟨"A", 1, 10, 5, 1⟩, ⟨"B", 2, 4, 7, 1⟩]).getStockorder.map some :=
  (first_seen_ordering [⟨"B", 1, 5, 6, 2⟩, ⟨"A", 1, 10, 5, 1⟩, ⟨"B", 2, 4, 7, 1⟩]).2.2.2.2.2
    (by decide) 3 (by decide)

/-! ## Shape of the percentage table -/

/-- C7 as stated fails at `getNumOfIntervals() = SIZE_MAX`: after the single record
`(A, 2^64 - 1, 1, 1, 1)` the loop test `i <= intervals` holds for every `size_t` value
of `i`, so neither the percentage loop nor `outputRequirements` returns, whatever the
number of loop tests allowed; no table of `getNumOfIntervals() * |getStockorder()|`
rows is produced. -/
theorem percentage_table_diverges_at_size_max :
    (⟨"A", 2 ^ 64 - 1, 1, 1, 1⟩ : Record).wf ∧
    (readMarketData [⟨"A", 2 ^ 64 - 1, 1, 1, 1⟩]).getNumOfIntervals = 2 ^ 64 - 1 ∧
    ∀ fuel,
      percentageLoop (readMarketData [⟨"A", 2 ^ 64 - 1, 1, 1, 1⟩]) fuel 1
        = Except.error Fault.outOfFuel ∧
      outputRequirements fuel (readMarketData [⟨"A", 2 ^ 64 - 1, 1, 1, 1⟩])
        = Except.error Fault.outOfFuel := by
  have hn : (readMarketData [⟨"A", 2 ^ 64 - 1, 1, 1, 1⟩]).getNumOfIntervals = 2 ^ 64 - 1 := by
    decide
  refine ⟨by decide, hn, ?_⟩
  intro fuel
  have hloop := percentageLoop_diverges (readMarketData [⟨"A", 2 ^ 64 - 1, 1, 1, 1⟩])
    (consistent_readMarketData _) (by rw [hn]; exact Nat.le_of_eq rfl) fuel 1
    (by rw [sizeMod_eq]; omega)
  refine ⟨hloop, ?_⟩
  unfold outputRequirements
  rw [hloop]

/-- C7, amended: for every reachable market state with `getNumOfIntervals() < SIZE_MAX`
and enough loop tests, every `getStock` of a listed symbol succeeds, the percentage
rows produced by `outputRequirements` are the blocks of `i = 1, ..., getNumOfIntervals()`
in ascending order, each block holding the row
`(symbol, i, getVolumeAtInterval(i) / getTotalVolume() * 100)` of every symbol of
`getStockorder()` in that order, followed by the delimiter and the high/low rows.
The table has `getNumOfIntervals() * |getStockorder()|` rows and its interval column
never decreases. -/
theorem percentage_table_shape (m : MarketData) (hm : Reachable m)
    (hn : m.getNumOfIntervals + 1 < sizeMod) (fuel : Nat) (hfuel : m.getNumOfIntervals < fuel) :
    ∃ stocks hls,
      m.getStockorder.map m.getStock = stocks.map some ∧
      stocks.map Stock.getStockName = m.getStockorder ∧
      percentageLoop m fuel 1 = Except.ok (percentageTable stocks m.getNumOfIntervals) ∧
      highLowRows m m.getStockorder = Except.ok hls ∧
      outputRequirements fuel m
        = Except.ok (percentageTable stocks m.getNumOfIntervals ++ [OutputLine.delimiter] ++ hls) ∧
      (percentageTable stocks m.getNumOfIntervals).length
        = m.getNumOfIntervals * m.getStockorder.length ∧
      (percentageTable stocks m.getNumOfIntervals).Pairwise
        (fun a b => a.intervalOf ≤ b.intervalOf) := by
  have hc := (reachable_consistent m hm).1
  obtain ⟨stocks, h1, h2⟩ := lookups_of_consistent m hc m.getStockorder (fun _ hx => hx)
  have hloop : percentageLoop m fuel 1
      = Except.ok (percentageTable stocks m.getNumOfIntervals) :=
    percentageLoop_eq m stocks h1 hn m.getNumOfIntervals 1 fuel (by omega) hfuel
  refine ⟨stocks, _, h1, h2, hloop, highLowRows_eq m _ stocks h1, ?_, ?_,
    pairwise_percentageTable stocks _⟩
  · unfold outputRequirements
    rw [hloop, highLowRows_eq m _ stocks h1]
  · unfold percentageTable
    rw [length_flatMap_block, List.length_range', ← h2, List.length_map]

/-- Witness of C7 (amended): a reachable state with two symbols and two intervals. -/
theorem percentage_table_shape_witness :
    ∃ stocks hls,
      (readMarketData [⟨"A", 1, 10, 5, 1⟩, ⟨"B", 2, 5, 6, 2⟩]).getStockorder.map
          (readMarketData [⟨"A", 1, 10, 5, 1⟩, ⟨"B", 2, 5, 6, 2⟩]).getStock = stocks.map some ∧
      stocks.map Stock.getStockName
        = (readMarketData [⟨"A", 1, 10, 5, 1⟩, ⟨"B", 2, 5, 6, 2⟩]).getStockorder ∧
      percentageLoop (readMarketData [⟨"A", 1, 10, 5, 1⟩, ⟨"B", 2, 5, 6, 2⟩]) 3 1
        = Except.ok (percentageTable stocks
            (readMarketData [⟨"A", 1, 10, 5, 1⟩, ⟨"B", 2, 5, 6, 2⟩]).getNumOfIntervals) ∧
      highLowRows (readMarketData [⟨"A", 1, 10, 5, 1⟩, ⟨"B", 2, 5, 6, 2⟩])
          (readMarketData [⟨"A", 1, 10, 5, 1⟩, ⟨"B", 2, 5, 6, 2⟩]).getStockorder = Except.ok hls ∧
      outputRequirements 3 (readMarketData [⟨"A", 1, 10, 5, 1⟩, ⟨"B", 2, 5, 6, 2⟩])
        = Except.ok (percentageTable stocks
            (readMarketData [⟨"A", 1, 10, 5, 1⟩, ⟨"B", 2, 5, 6, 2⟩]).getNumOfIntervals
            ++ [OutputLine.delimiter] ++ hls) ∧
      (percentageTable stocks
          (readMarketData [⟨"A", 1, 10, 5, 1⟩, ⟨"B", 2, 5, 6, 2⟩]).getNumOfIntervals).length
        = (readMarketData [⟨"A", 1, 10, 5, 1⟩, ⟨"B", 2, 5, 6, 2⟩]).getNumOfIntervals
          * (readMarketData [⟨"A", 1, 10, 5, 1⟩, ⟨"B", 2, 5, 6, 2⟩]).getStockorder.length ∧
      (percentageTable stocks
          (readMarketData [⟨"A", 1, 10, 5, 1⟩, ⟨"B", 2, 5, 6, 2⟩]).getNumOfIntervals).Pairwise
        (fun a b => a.intervalOf ≤ b.intervalOf) :=
  percentage_table_shape (readMarketData [⟨"A", 1, 10, 5, 1⟩, ⟨"B", 2, 5, 6, 2⟩])
    (reachable_readMarketData _ (by decide)) (by decide) 3 (by decide)

/-! ## Rejected calls -/

/-- C12: duplicate creation is rejected.  For every market `m` and every symbol `s`
present in `m`, `addStock(s, interval, volume, high, low)` returns the state `m`
itself for all argument values: the aggregate of `s`, every other aggregate,
`getStockorder()` and `getNumOfIntervals()` are as before.  Hence in every reachable
state no symbol has two entries in `allStocks` or in the order list. -/
theorem duplicate_creation_rejected :
    (∀ (m : MarketData) (s : String) (interval volume : Nat) (high low : ℚ),
      m.found s = true →
        m.addStock s interval volume high low = m ∧
        (m.addStock s interval volume high low).getStock s = m.getStock s ∧
        (m.addStock s interval volume high low).getStockorder = m.getStockorder ∧
        (m.addStock s interval volume high low).getNumOfIntervals = m.getNumOfIntervals) ∧
    (∀ m : MarketData, Reachable m →
      (m.allStocks.map Prod.fst).Nodup ∧ m.getStockorder.Nodup) := by
  constructor
  · intro m s interval volume high low h
    have heq : m.addStock s interval volume high low = m := by
      unfold MarketData.found at h
      unfold MarketData.addStock
      cases hf : umFind m.allStocks s with
      | none => rw [hf] at h; cases h
      | some st => rfl
    rw [heq]
    exact ⟨rfl, rfl, rfl, rfl⟩
  · intro m hm
    obtain ⟨h1, h2⟩ := reachable_keys m hm
    exact ⟨h1 ▸ h2, h2⟩

/-- Witness of C12: a second `addStock` of `A`, with a larger interval, changes nothing. -/
theorem duplicate_creation_rejected_witness :
    (readMarketData [⟨"A", 1, 10, 5, 1⟩, ⟨"B", 1, 5, 6, 2⟩]).addStock "A" 9 7 8 0
      = readMarketData [⟨"A", 1, 10, 5, 1⟩, ⟨"B", 1, 5, 6, 2⟩] ∧
    (readMarketData [⟨"A", 1, 10, 5, 1⟩, ⟨"B", 1, 5, 6, 2⟩]).getStockorder.Nodup :=
  ⟨(duplicate_creation_rejected.1 _ "A" 9 7 8 0 (by decide)).1,
   (duplicate_creation_rejected.2 _ (reachable_readMarketData _ (by decide))).2⟩

/-- C20: updating an unknown symbol is a no-op.  For every market `m` and every symbol
`s` not present in `m`, `updateStock(s, interval, volume, high, low)` returns the state
`m` itself for all argument values: no aggregate is created, and `getStockorder()` and
`getNumOfIntervals()` are unchanged, also when `interval` exceeds the current maximum. -/
theorem update_unknown_symbol_noop (m : MarketData) (s : String) (interval volume : Nat)
    (high low : ℚ) (h : m.found s = false) :
    m.updateStock s interval volume high low = m ∧
    (m.updateStock s interval volume high low).getStock s = none ∧
    (m.updateStock s interval volume high low).found s = false ∧
    (m.updateStock s interval volume high low).getStockorder = m.getStockorder ∧
    (m.updateStock s interval volume high low).getNumOfIntervals = m.getNumOfIntervals := by
  have hnone : umFind m.allStocks s = none := by
    unfold MarketData.found at h
    cases hf : umFind m.allStocks s with
    | none => rfl
    | some st => rw [hf] at h; cases h
  have heq : m.updateStock s interval volume high low = m := by
    unfold MarketData.updateStock
    rw [hnone]
  rw [heq]
  exact ⟨rfl, hnone, h, rfl, rfl⟩

/-- Witness of C20: an update of the unknown `C` at interval 9, beyond the maximum 1. -/
theorem update_unknown_symbol_noop_witness :
    (readMarketData [⟨"A", 1, 10, 5, 1⟩, ⟨"B", 1, 5, 6, 2⟩]).updateStock "C" 9 7 8 0
      = readMarketData [⟨"A", 1, 10, 5, 1⟩, ⟨"B", 1, 5, 6, 2⟩] :=
  (update_unknown_symbol_noop _ "C" 9 7 8 0 (by decide)).1

/-! ## Extrema inside the current range -/

/-- C16: idempotence of extrema.  For every stock and every record with
`minLow < low` and `high < maxHigh`, `updateStockInfo` leaves `getMaxHigh()` and
`getMinLow()` unchanged. -/
theorem extrema_idempotent (st : Stock) (interval volume : Nat) (high low : ℚ)
    (hlow : st.getMinLow < low) (hhigh : high < st.getMaxHigh) :
    (st.updateStockInfo interval volume high low).getMaxHigh = st.getMaxHigh ∧
    (st.updateStockInfo interval volume high low).getMinLow = st.getMinLow := by
  unfold Stock.getMaxHigh Stock.getMinLow at *
  constructor
  · simp only [Stock.updateStockInfo, stdMax]
    rw [if_neg (not_lt.2 (le_of_lt hhigh))]
  · simp only [Stock.updateStockInfo, stdMin]
    rw [if_neg (not_lt.2 (le_of_lt hlow))]

/-- Witness of C16: a record with high 6 and low 2 inside the range `[1, 9]`. -/
theorem extrema_idempotent_witness :
    ((⟨"A", 15, [(1, 15)], 9, 1⟩ : Stock).updateStockInfo 2 7 6 2).getMaxHigh = 9 ∧
    ((⟨"A", 15, [(1, 15)], 9, 1⟩ : Stock).updateStockInfo 2 7 6 2).getMinLow = 1 :=
  extrema_idempotent ⟨"A", 15, [(1, 15)], 9, 1⟩ 2 7 6 2 (by decide) (by decide)

/-! ## Lookup of a symbol -/

/-- C13: lookup.  After reading any list of records, `getStock(s)` returns an
aggregate if and only if `s` is the symbol of some record, and `found(s)` is true in
exactly the same cases; for any other symbol `getStock` returns the absent result.
`getStock` and `found` only read the market: they return no new state. -/
theorem lookup_known_symbols (rs : List Record) (s : String) :
    (((readMarketData rs).getStock s).isSome = true ↔ ∃ r ∈ rs, r.stockName = s) ∧
    ((readMarketData rs).found s = true ↔ ∃ r ∈ rs, r.stockName = s) ∧
    ((¬ ∃ r ∈ rs, r.stockName = s) → (readMarketData rs).getStock s = none) := by
  have hf : (readMarketData rs).found s = true ↔ ∃ r ∈ rs, r.stockName = s := by
    rw [found_readMarketData, List.mem_map]
  refine ⟨hf, hf, ?_⟩
  intro hno
  cases hg : (readMarketData rs).getStock s with
  | none => rfl
  | some st =>
      have : (readMarketData rs).found s = true := by
        unfold MarketData.found MarketData.getStock at *
        rw [hg]; rfl
      exact absurd (hf.1 this) hno

/-- Witness of C13: the symbol `C` does not occur, so its lookup is absent. -/
theorem lookup_known_symbols_witness :
    (readMarketData [⟨"A", 1, 10, 5, 1⟩, ⟨"B", 1, 5, 6, 2⟩]).getStock "C" = none :=
  (lookup_known_symbols [⟨"A", 1, 10, 5, 1⟩, ⟨"B", 1, 5, 6, 2⟩] "C").2.2 (by decide)

/-! ## Registry consistency -/

/-- C19: registry consistency.  In every market reachable from the empty one by
`addStock` and `updateStock` calls, the symbols of `getStockorder()` are exactly the
keys of `allStocks`, neither list has a duplicate, and the stock stored under a key `s`
has `getStockName() == s`.  Therefore every `getStock` call of `outputRequirements`
returns an aggregate: the rows of every interval and the high/low rows are produced,
and no run of `outputRequirements` ends in a null dereference. -/
theorem registry_consistency (m : MarketData) (hm : Reachable m) :
    (∀ s, s ∈ m.getStockorder ↔ s ∈ m.allStocks.map Prod.fst) ∧
    m.getStockorder.Nodup ∧
    (m.allStocks.map Prod.fst).Nodup ∧
    (∀ p ∈ m.allStocks, p.2.getStockName = p.1) ∧
    (∀ s st, m.getStock s = some st → st.getStockName = s) ∧
    (∀ name ∈ m.getStockorder, ∃ st, m.getStock name = some st) ∧
    (∀ i, ∃ rows, percentageRowsAt m i m.getStockorder = Except.ok rows) ∧
    (∃ rows, highLowRows m m.getStockorder = Except.ok rows) ∧
    (∀ fuel, outputRequirements fuel m ≠ Except.error Fault.nullDeref) := by
  obtain ⟨hk, hnd⟩ := reachable_keys m hm
  have hc := (reachable_consistent m hm).1
  have hndk : (m.allStocks.map Prod.fst).Nodup := hk ▸ hnd
  obtain ⟨stocks, h1, _⟩ := lookups_of_consistent m hc m.getStockorder (fun _ hx => hx)
  refine ⟨?_, hnd, hndk, ?_, hc.2, ?_, ?_, ?_, ?_⟩
  · intro s; rw [hk]
  · intro p hp
    exact hc.2 p.1 p.2 (umFind_of_mem m.allStocks hndk p hp)
  · intro name hname
    have := (hc.1 name).1 hname
    cases hg : m.getStock name with
    | none => rw [hg] at this; cases this
    | some st => exact ⟨st, rfl⟩
  · intro i
    exact ⟨_, percentageRowsAt_eq m i _ stocks h1⟩
  · exact ⟨_, highLowRows_eq m _ stocks h1⟩
  · intro fuel h
    unfold outputRequirements at h
    cases hp : percentageLoop m fuel 1 with
    | error e =>
        rw [hp] at h
        simp only [Except.error.injEq] at h
        rw [h] at hp
        exact percentageLoop_no_nullDeref m hc fuel 1 hp
    | ok pcts =>
        rw [hp, highLowRows_eq m _ stocks h1] at h
        cases h

/-- Witness of C19: a state built by two `addStock` calls and one `updateStock` call. -/
theorem registry_consistency_witness :
    ∃ st, (((MarketData.empty.addStock "A" 1 10 5 1).addStock "B" 1 5 6 2).updateStock
        "A" 2 4 7 3).getStock "B" = some st :=
  (registry_consistency
    (((MarketData.empty.addStock "A" 1 10 5 1).addStock "B" 1 5 6 2).updateStock "A" 2 4 7 3)
    (Reachable.updateStock _ "A" 2 4 7 3
      (Reachable.addStock _ "B" 1 5 6 2
        (Reachable.addStock _ "A" 1 10 5 1 Reachable.empty (by decide) (by decide))
        (by decide) (by decide))
      (by decide) (by decide))).2.2.2.2.2.1 "B" (by decide)

/-! ## Growth of the interval volumes -/

/-- C17 as stated fails when the `size_t` addition wraps: the stock built by the
constructor from the record `(A, 1, 2^64 - 1, 1, 1)` stores `2^64 - 1` at key `1`,
and `updateStockInfo(1, 1, 1, 1)` leaves `0` there, which is smaller. -/
theorem interval_volume_wraps_counterexample :
    (2 ^ 64 - 1 < sizeMod ∧ 1 < sizeMod) ∧
    umFind (Stock.new "A" 1 (2 ^ 64 - 1) 1 1).getIntervalVolume 1 = some (2 ^ 64 - 1) ∧
    umFind ((Stock.new "A" 1 (2 ^ 64 - 1) 1 1).updateStockInfo 1 1 1 1).getIntervalVolume 1
      = some 0 ∧
    ¬ (2 ^ 64 - 1 ≤ 0) := by
  decide

/-- C17, amended: for every stock, every key `k` present in `intervalVolume` with value
`old`, and every `updateStockInfo` call, `k` is still a key after the call; its value
is unchanged when `k` is not the updated interval, and is `(old + volume) mod 2^64`
when it is.  Hence the value after the call is `>=` the value before whenever
`old + volume` does not exceed the `size_t` range. -/
theorem interval_volume_monotone (st : Stock) (k old : Nat)
    (hk : umFind st.getIntervalVolume k = some old)
    (interval volume : Nat) (high low : ℚ) :
    (interval ≠ k →
      umFind (st.updateStockInfo interval volume high low).getIntervalVolume k = some old) ∧
    (interval = k →
      umFind (st.updateStockInfo interval volume high low).getIntervalVolume k
        = some ((old + volume) % sizeMod)) ∧
    ((interval = k → old + volume < sizeMod) →
      ∃ v, umFind (st.updateStockInfo interval volume high low).getIntervalVolume k = some v ∧
        old ≤ v) := by
  have hfind := umFind_updateStockInfo st interval volume high low k
  rw [hk] at hfind
  simp only [Option.getD_some] at hfind
  refine ⟨?_, ?_, ?_⟩
  · intro hne
    rw [hfind, if_neg hne]
  · intro heq
    rw [hfind, if_pos heq]
  · intro hno
    by_cases h : interval = k
    · refine ⟨(old + volume) % sizeMod, by rw [hfind, if_pos h], ?_⟩
      rw [Nat.mod_eq_of_lt (hno h)]
      exact Nat.le_add_right _ _
    · exact ⟨old, by rw [hfind, if_neg h], Nat.le_refl _⟩

/-- Witness of C17 (amended): an update at the present key `2`, without wrap-around. -/
theorem interval_volume_monotone_witness :
    ∃ v, umFind ((⟨"A", 15, [(1, 10), (2, 5)], 5, 1⟩ : Stock).updateStockInfo
        2 7 6 2).getIntervalVolume 2 = some v ∧ 5 ≤ v :=
  (interval_volume_monotone ⟨"A", 15, [(1, 10), (2, 5)], 5, 1⟩ 2 5 (by decide) 2 7 6 2).2.2
    (fun _ => by decide)

/-! ## Order tolerance of ingestion -/

/-- C18: order tolerance.  For two record lists with `size_t` fields that are
permutations of each other, reading each yields the same set of symbols (the two
order lists are permutations of each other, and `found` agrees), for every symbol the
same `getTotalVolume()`, the same interval map (the same entry under every key, hence
the same `getVolumeAtInterval`), the same `getMaxHigh()` and `getMinLow()`, and the
same `getNumOfIntervals()`. -/
theorem order_tolerance (rs1 rs2 : List Record) (hp : rs1.Perm rs2) (hwf : ∀ r ∈ rs1, r.wf) :
    (∀ s, (readMarketData rs1).found s = (readMarketData rs2).found s) ∧
    (∀ s, s ∈ (readMarketData rs1).getStockorder ↔ s ∈ (readMarketData rs2).getStockorder) ∧
    (readMarketData rs1).getStockorder.Perm (readMarketData rs2).getStockorder ∧
    (∀ s st1, (readMarketData rs1).getStock s = some st1 →
      ∃ st2, (readMarketData rs2).getStock s = some st2 ∧
        st1.getTotalVolume = st2.getTotalVolume ∧
        (∀ i, umFind st1.getIntervalVolume i = umFind st2.getIntervalVolume i) ∧
        (∀ i, st1.getVolumeAtInterval i = st2.getVolumeAtInterval i) ∧
        st1.getMaxHigh = st2.getMaxHigh ∧
        st1.getMinLow = st2.getMinLow) ∧
    (∀ s, (readMarketData rs1).getStock s = none → (readMarketData rs2).getStock s = none) ∧
    (readMarketData rs1).getNumOfIntervals = (readMarketData rs2).getNumOfIntervals := by
  have hmem : ∀ s, s ∈ rs1.map (fun r => r.stockName) ↔ s ∈ rs2.map (fun r => r.stockName) :=
    fun s => (hp.map _).mem_iff
  have hfound : ∀ s, (readMarketData rs1).found s = (readMarketData rs2).found s := by
    intro s
    rw [Bool.eq_iff_iff, found_readMarketData, found_readMarketData]
    exact hmem s
  have horder : ∀ s, s ∈ (readMarketData rs1).getStockorder
      ↔ s ∈ (readMarketData rs2).getStockorder := by
    intro s
    rw [stockOrder_readMarketData, stockOrder_readMarketData, mem_firstSeen, mem_firstSeen]
    exact hmem s
  refine ⟨hfound, horder, ?_, ?_, ?_, ?_⟩
  · apply (List.perm_ext_iff_of_nodup ?_ ?_).2 horder
    · rw [stockOrder_readMarketData]; exact nodup_firstSeen _
    · rw [stockOrder_readMarketData]; exact nodup_firstSeen _
  · intro s st1 h1
    rw [getStock_readMarketData] at h1
    have hperm : (recordsOf s rs1).Perm (recordsOf s rs2) := hp.filter _
    have hvol : ∀ r ∈ recordsOf s rs1, r.volume < sizeMod := by
      intro r hr
      exact (hwf r (List.mem_filter.1 hr).1).2
    obtain ⟨st2, h2, ht, hmap, hmax, hmin⟩ := stockOfRecords_perm _ _ hperm hvol st1 h1
    refine ⟨st2, by rw [getStock_readMarketData]; exact h2, ht, hmap, ?_, hmax, hmin⟩
    intro i
    have := hmap i
    unfold Stock.getIntervalVolume at this
    unfold Stock.getVolumeAtInterval
    rw [this]
  · intro s h1
    have hf1 : (readMarketData rs1).found s = false := by
      unfold MarketData.found MarketData.getStock at *
      rw [h1]; rfl
    have hf2 : (readMarketData rs2).found s = false := by rw [← hfound s]; exact hf1
    unfold MarketData.found MarketData.getStock at *
    cases hg : umFind (readMarketData rs2).allStocks s with
    | none => rfl
    | some st => rw [hg] at hf2; cases hf2
  · rw [intervals_readMarketData, intervals_readMarketData]
    exact maxInterval_perm rs1 rs2 hp

/-- Witness of C18: three records and their reversal; `A` has its intervals swapped. -/
theorem order_tolerance_witness :
    (readMarketData [⟨"A", 1, 10, 5, 1⟩, ⟨"B", 1, 5, 6, 2⟩, ⟨"A", 2, 4, 7, 3⟩]).getNumOfIntervals
      = (readMarketData
          [⟨"A", 2, 4, 7, 3⟩, ⟨"B", 1, 5, 6, 2⟩, ⟨"A", 1, 10, 5, 1⟩]).getNumOfIntervals ∧
    ∃ st2, (readMarketData
        [⟨"A", 2, 4, 7, 3⟩, ⟨"B", 1, 5, 6, 2⟩, ⟨"A", 1, 10, 5, 1⟩]).getStock "A" = some st2 ∧
      (⟨"A", 14, [(1, 10), (2, 4)], 7, 1⟩ : Stock).getTotalVolume = st2.getTotalVolume ∧
      (∀ i, umFind (⟨"A", 14, [(1, 10), (2, 4)], 7, 1⟩ : Stock).getIntervalVolume i
        = umFind st2.getIntervalVolume i) ∧
      (∀ i, (⟨"A", 14, [(1, 10), (2, 4)], 7, 1⟩ : Stock).getVolumeAtInterval i
        = st2.getVolumeAtInterval i) ∧
      (⟨"A", 14, [(1, 10), (2, 4)], 7, 1⟩ : Stock).getMaxHigh = st2.getMaxHigh ∧
      (⟨"A", 14, [(1, 10), (2, 4)], 7, 1⟩ : Stock).getMinLow = st2.getMinLow :=
  ⟨(order_tolerance [⟨"A", 1, 10, 5, 1⟩, ⟨"B", 1, 5, 6, 2⟩, ⟨"A", 2, 4, 7, 3⟩]
      [⟨"A", 2, 4, 7, 3⟩, ⟨"B", 1, 5, 6, 2⟩, ⟨"A", 1, 10, 5, 1⟩]
      (by decide)
      (by decide)).2.2.2.2.2,
   (order_tolerance [⟨"A", 1, 10, 5, 1⟩, ⟨"B", 1, 5, 6, 2⟩, ⟨"A", 2, 4, 7, 3⟩]
      [⟨"A", 2, 4, 7, 3⟩, ⟨"B", 1, 5, 6, 2⟩, ⟨"A", 1, 10, 5, 1⟩]
      (by decide)
      (by decide)).2.2.2.1 "A" ⟨"A", 14, [(1, 10), (2, 4)], 7, 1⟩ (by decide)⟩

/-! ## The end-to-end scenario -/

/-- C15: end-to-end scenario.  Reading the four records `(VOD.L,1,80,184.1,182.4)`,
`(BT.LN,1,25,449.8,448.2)`, `(VOD.L,2,20,184.1,182.4)`, `(BT.LN,2,75,449.8,448.2)` in
this order and running `outputRequirements` (with at least the three loop tests it
needs) yields the percentage rows `(VOD.L,1,80)`, `(BT.LN,1,25)`, `(VOD.L,2,20)`,
`(BT.LN,2,75)`, then the delimiter, then the high/low rows `(VOD.L,184.1,182.4)`,
`(BT.LN,449.8,448.2)`. -/
theorem end_to_end_scenario (fuel : Nat) (hfuel : 3 ≤ fuel) :
    outputRequirements fuel (readMarketData
        [⟨"VOD.L", 1, 80, 184.1, 182.4⟩, ⟨"BT.LN", 1, 25, 449.8, 448.2⟩,
         ⟨"VOD.L", 2, 20, 184.1, 182.4⟩, ⟨"BT.LN", 2, 75, 449.8, 448.2⟩])
      = Except.ok
          [OutputLine.percentage "VOD.L" 1 (Percentage.value 80),
           OutputLine.percentage "BT.LN" 1 (Percentage.value 25),
           OutputLine.percentage "VOD.L" 2 (Percentage.value 20),
           OutputLine.percentage "BT.LN" 2 (Percentage.value 75),
           OutputLine.delimiter,
           OutputLine.highLow "VOD.L" 184.1 182.4,
           OutputLine.highLow "BT.LN" 449.8 448.2] := by
  obtain ⟨k, rfl⟩ : ∃ k, fuel = k + 3 := ⟨fuel - 3, by omega⟩
  have hs := scenario_state
  unfold scenarioRecords at hs
  rw [hs]
  simp [outputRequirements, percentageLoop, percentageRowsAt, highLowRows,
    MarketData.getStock, MarketData.getNumOfIntervals, MarketData.getStockorder, umFind,
    Stock.getStockName, Stock.getVolumeAtInterval, Stock.getTotalVolume, Stock.getMaxHigh,
    Stock.getMinLow, percentageOfVolumeTraded, sizeMod]

/-- Witness of C15: the run with exactly three loop tests. -/
theorem end_to_end_scenario_witness :
    outputRequirements 3 (readMarketData
        [⟨"VOD.L", 1, 80, 184.1, 182.4⟩, ⟨"BT.LN", 1, 25, 449.8, 448.2⟩,
         ⟨"VOD.L", 2, 20, 184.1, 182.4⟩, ⟨"BT.LN", 2, 75, 449.8, 448.2⟩])
      = Except.ok
          [OutputLine.percentage "VOD.L" 1 (Percentage.value 80),
           OutputLine.percentage "BT.LN" 1 (Percentage.value 25),
           OutputLine.percentage "VOD.L" 2 (Percentage.value 20),
           OutputLine.percentage "BT.LN" 2 (Percentage.value 75),
           OutputLine.delimiter,
           OutputLine.highLow "VOD.L" 184.1 182.4,
           OutputLine.highLow "BT.LN" 449.8 448.2] :=
  end_to_end_scenario 3 (by decide)

/-! ## Missing intervals -/

/-- C11: a missing interval reports zero.  `getVolumeAtInterval(i)` returns `0` when
`i` is not a key of the interval map and the stored value when it is.  Consequently,
after reading any records, for a stored symbol with total volume `> 0` and no record
at the interval `i`, the rows of interval `i` are produced without a fault and the
row of that symbol carries the percentage `0` (and no other value).  In the scenario
`A:(1,10)`, `B:(1,5),(2,5)` the interval-2 row of `A` is `0`. -/
theorem missing_interval_reports_zero :
    (∀ (st : Stock) (i : Nat), umFind st.getIntervalVolume i = none →
      st.getVolumeAtInterval i = 0) ∧
    (∀ (st : Stock) (i v : Nat), umFind st.getIntervalVolume i = some v →
      st.getVolumeAtInterval i = v) ∧
    (∀ (rs : List Record) (s : String) (st : Stock) (i : Nat),
      (readMarketData rs).getStock s = some st → 0 < st.getTotalVolume →
      (∀ r ∈ rs, r.stockName = s → r.interval ≠ i) →
        st.getVolumeAtInterval i = 0 ∧
        percentageOfVolumeTraded (st.getVolumeAtInterval i) st.getTotalVolume
          = Percentage.value 0 ∧
        ∃ rows,
          percentageRowsAt (readMarketData rs) i (readMarketData rs).getStockorder
            = Except.ok rows ∧
          OutputLine.percentage s i (Percentage.value 0) ∈ rows ∧
          ∀ p, OutputLine.percentage s i p ∈ rows → p = Percentage.value 0) ∧
    outputRequirements 3 (readMarketData missingIntervalRecords)
      = Except.ok
          [OutputLine.percentage "A" 1 (Percentage.value 100),
           OutputLine.percentage "B" 1 (Percentage.value 50),
           OutputLine.percentage "A" 2 (Percentage.value 0),
           OutputLine.percentage "B" 2 (Percentage.value 50),
           OutputLine.delimiter,
           OutputLine.highLow "A" 5 1,
           OutputLine.highLow "B" 6 2] := by
  refine ⟨?_, ?_, ?_, ?_⟩
  · intro st i h
    unfold Stock.getIntervalVolume at h
    unfold Stock.getVolumeAtInterval
    rw [h]
  · intro st i v h
    unfold Stock.getIntervalVolume at h
    unfold Stock.getVolumeAtInterval
    rw [h]
  · intro rs s st i hst hpos hno
    have hvol : st.getVolumeAtInterval i = 0 := by
      have hst2 := hst
      rw [getStock_readMarketData] at hst2
      cases hl : recordsOf s rs with
      | nil => rw [hl] at hst2; cases hst2
      | cons r rest =>
          rw [hl] at hst2
          simp only [stockOfRecords, Option.some.injEq] at hst2
          have hnone := umFind_none_of_no_record r rest i (by
            intro x hx
            rw [← hl] at hx
            have := (mem_recordsOf s rs x).1 hx
            exact hno x this.1 this.2)
          rw [hst2] at hnone
          unfold Stock.getIntervalVolume at hnone
          unfold Stock.getVolumeAtInterval
          rw [hnone]
    have hne : st.getTotalVolume ≠ 0 := Nat.pos_iff_ne_zero.1 hpos
    have hpct : percentageOfVolumeTraded (st.getVolumeAtInterval i) st.getTotalVolume
        = Percentage.value 0 := by
      rw [hvol]
      simp [percentageOfVolumeTraded, hne]
    have hc := consistent_readMarketData rs
    obtain ⟨stocks, h1, h2⟩ :=
      lookups_of_consistent _ hc (readMarketData rs).getStockorder (fun _ hx => hx)
    refine ⟨hvol, hpct, _, percentageRowsAt_eq _ i _ stocks h1, ?_, ?_⟩
    · have hmem := mem_lookups_of_getStock _ hc stocks h1 s st hst
      refine List.mem_map.2 ⟨st, hmem, ?_⟩
      rw [hpct, hc.2 s st hst]
    · intro p hp
      obtain ⟨st2, hst2, e⟩ := List.mem_map.1 hp
      simp only [OutputLine.percentage.injEq, true_and] at e
      have hg := getStock_of_mem_lookups _ hc _ stocks h1 st2 hst2
      rw [e.1, hst] at hg
      cases hg
      rw [← e.2]
      exact hpct
  · have hs : readMarketData missingIntervalRecords
        = ⟨[("A", ⟨"A", 10, [(1, 10)], 5, 1⟩), ("B", ⟨"B", 10, [(1, 5), (2, 5)], 6, 2⟩)],
            ["A", "B"], 2⟩ := by decide
    rw [hs]
    simp [outputRequirements, percentageLoop, percentageRowsAt, highLowRows,
      MarketData.getStock, MarketData.getNumOfIntervals, MarketData.getStockorder, umFind,
      Stock.getStockName, Stock.getVolumeAtInterval, Stock.getTotalVolume, Stock.getMaxHigh,
      Stock.getMinLow, percentageOfVolumeTraded, sizeMod]
    norm_num

/-- Witness of C11: symbol `A` of the scenario at its missing interval 2. -/
theorem missing_interval_reports_zero_witness :
    percentageOfVolumeTraded ((⟨"A", 10, [(1, 10)], 5, 1⟩ : Stock).getVolumeAtInterval 2)
        (⟨"A", 10, [(1, 10)], 5, 1⟩ : Stock).getTotalVolume = Percentage.value 0 :=
  (missing_interval_reports_zero.2.2.1 missingIntervalRecords "A" ⟨"A", 10, [(1, 10)], 5, 1⟩ 2
    (by decide) (by decide) (by decide)).2.1

/-! ## The high/low table -/

/-- C14 as stated fails at `getNumOfIntervals() = SIZE_MAX`: after the records
`(A,1,5,2,1)` and `(B, 2^64 - 1, 1, 3, 1)` the percentage loop never ends, so
`outputRequirements` never returns: the delimiter is never emitted and no high/low row
is produced, whatever the number of loop tests allowed. -/
theorem high_low_table_never_reached :
    (∀ r ∈ ([⟨"A", 1, 5, 2, 1⟩, ⟨"B", 2 ^ 64 - 1, 1, 3, 1⟩] : List Record), r.wf) ∧
    ∀ fuel, outputRequirements fuel
        (readMarketData [⟨"A", 1, 5, 2, 1⟩, ⟨"B", 2 ^ 64 - 1, 1, 3, 1⟩])
      = Except.error Fault.outOfFuel := by
  refine ⟨by decide, ?_⟩
  intro fuel
  have hn : (readMarketData
      [⟨"A", 1, 5, 2, 1⟩, ⟨"B", 2 ^ 64 - 1, 1, 3, 1⟩]).getNumOfIntervals = 2 ^ 64 - 1 := by
    decide
  have hloop := percentageLoop_diverges
    (readMarketData [⟨"A", 1, 5, 2, 1⟩, ⟨"B", 2 ^ 64 - 1, 1, 3, 1⟩])
    (consistent_readMarketData _) (by rw [hn]; exact Nat.le_of_eq rfl) fuel 1
    (by rw [sizeMod_eq]; omega)
  unfold outputRequirements
  rw [hloop]

/-- C14, amended: for every list of records whose intervals are all below `SIZE_MAX`,
and enough loop tests, `outputRequirements` returns the percentage rows, then the
delimiter, then exactly one row `(symbol, getMaxHigh(), getMinLow())` per symbol of
`getStockorder()`, in that order, where the two values are the maximum high and the
minimum low over all records of that symbol (bounds that are attained).  The lines
before the delimiter are percentage rows, and the delimiter occurs exactly once. -/
theorem high_low_table (rs : List Record) (hint : ∀ r ∈ rs, r.interval + 1 < sizeMod)
    (fuel : Nat) (hfuel : (readMarketData rs).getNumOfIntervals < fuel) :
    ∃ pcts,
      outputRequirements fuel (readMarketData rs)
        = Except.ok (pcts ++ [OutputLine.delimiter]
            ++ (readMarketData rs).getStockorder.map
                (fun s => OutputLine.highLow s (maxHighOf s rs) (minLowOf s rs))) ∧
      (∀ x ∈ pcts, ∃ name i p, x = OutputLine.percentage name i p) ∧
      (pcts ++ [OutputLine.delimiter]
          ++ (readMarketData rs).getStockorder.map
              (fun s => OutputLine.highLow s (maxHighOf s rs) (minLowOf s rs))).count
        OutputLine.delimiter = 1 ∧
      (∀ s ∈ (readMarketData rs).getStockorder,
        (∃ st, (readMarketData rs).getStock s = some st ∧
          st.getMaxHigh = maxHighOf s rs ∧ st.getMinLow = minLowOf s rs) ∧
        (∀ r ∈ rs, r.stockName = s → r.high ≤ maxHighOf s rs ∧ minLowOf s rs ≤ r.low) ∧
        (∃ r ∈ rs, r.stockName = s ∧ r.high = maxHighOf s rs) ∧
        (∃ r ∈ rs, r.stockName = s ∧ r.low = minLowOf s rs)) := by
  have hc := consistent_readMarketData rs
  obtain ⟨stocks, h1, h2⟩ :=
    lookups_of_consistent _ hc (readMarketData rs).getStockorder (fun _ hx => hx)
  have hn : (readMarketData rs).getNumOfIntervals + 1 < sizeMod := by
    rw [intervals_readMarketData]
    exact maxInterval_succ_lt rs hint
  have hloop := percentageLoop_eq (readMarketData rs) stocks h1 hn
    (readMarketData rs).getNumOfIntervals 1 fuel (by omega) hfuel
  have hall : ∀ s ∈ (readMarketData rs).getStockorder,
      (∃ st, (readMarketData rs).getStock s = some st ∧
        st.getMaxHigh = maxHighOf s rs ∧ st.getMinLow = minLowOf s rs) ∧
      (∀ r ∈ rs, r.stockName = s → r.high ≤ maxHighOf s rs ∧ minLowOf s rs ≤ r.low) ∧
      (∃ r ∈ rs, r.stockName = s ∧ r.high = maxHighOf s rs) ∧
      (∃ r ∈ rs, r.stockName = s ∧ r.low = minLowOf s rs) := by
    intro s hs
    have hsome := (hc.1 s).1 hs
    cases hg : (readMarketData rs).getStock s with
    | none => rw [hg] at hsome; cases hsome
    | some st =>
        obtain ⟨e1, e2, e3, e4, e5⟩ := extrema_readMarketData rs s st hg
        exact ⟨⟨st, rfl, e1, e2⟩, e3, e4, e5⟩
  have hhl := highLowRows_map (readMarketData rs) (fun s => maxHighOf s rs)
    (fun s => minLowOf s rs) (readMarketData rs).getStockorder (fun s hs => (hall s hs).1)
  have hpct : ∀ x ∈ (List.range' 1 (readMarketData rs).getNumOfIntervals).flatMap
      (percentageBlock stocks), ∃ name i p, x = OutputLine.percentage name i p :=
    fun x hx => mem_percentageTable stocks _ x hx
  refine ⟨_, ?_, hpct, ?_, hall⟩
  · unfold outputRequirements
    rw [hloop, hhl]
  · rw [List.count_append, List.count_append]
    have z1 : List.count OutputLine.delimiter
        ((List.range' 1 (readMarketData rs).getNumOfIntervals).flatMap
          (percentageBlock stocks)) = 0 := by
      rw [List.count_eq_zero]
      intro hmem
      obtain ⟨_, _, _, e⟩ := hpct _ hmem
      cases e
    have z2 : List.count OutputLine.delimiter
        ((readMarketData rs).getStockorder.map
          (fun s => OutputLine.highLow s (maxHighOf s rs) (minLowOf s rs))) = 0 := by
      rw [List.count_eq_zero]
      intro hmem
      obtain ⟨_, _, e⟩ := List.mem_map.1 hmem
      cases e
    rw [z1, z2]
    rfl

/-- Witness of C14 (amended): two symbols, the extrema of `A` come from two records. -/
theorem high_low_table_witness :
    ∃ pcts,
      outputRequirements 3 (readMarketData [⟨"A", 1, 10, 5, 2⟩, ⟨"B", 1, 5, 6, 2⟩, ⟨"A", 2, 4, 7, 1⟩])
        = Except.ok (pcts ++ [OutputLine.delimiter]
            ++ (readMarketData
                [⟨"A", 1, 10, 5, 2⟩, ⟨"B", 1, 5, 6, 2⟩, ⟨"A", 2, 4, 7, 1⟩]).getStockorder.map
                (fun s => OutputLine.highLow s
                  (maxHighOf s [⟨"A", 1, 10, 5, 2⟩, ⟨"B", 1, 5, 6, 2⟩, ⟨"A", 2, 4, 7, 1⟩])
                  (minLowOf s [⟨"A", 1, 10, 5, 2⟩, ⟨"B", 1, 5, 6, 2⟩, ⟨"A", 2, 4, 7, 1⟩]))) :=
  (high_low_table [⟨"A", 1, 10, 5, 2⟩, ⟨"B", 1, 5, 6, 2⟩, ⟨"A", 2, 4, 7, 1⟩] (by decide) 3
    (by decide)).imp (fun _ h => h.1)

end VWAPer
